import Mathlib

/-!
Verification of the eight_deep_parser repository (src/lib.rs, src/parser.rs):
a nom-based parser for Debian-style stanza files, together with its
map-building step and the inverse serializer.

The embedding is byte-level: a Rust byte slice or String is a `List Nat`
(one entry per byte).  All delimiters used by the grammar are single ASCII
bytes (58 = colon, 10 = newline, 32 = space, 45 = dash, 9 = tab, 13 = CR),
so byte-level search coincides with the nom combinators on `&[u8]`.
Repetition combinators (`many0`) are given fuel equal to the input length;
since every repeated parser consumes at least one byte this is exact, and
it keeps every definition computable by kernel reduction.
-/

namespace EightDeep

abbrev Bytes := List Nat

/-- Model of nom `tag(t)`: succeed consuming `t` exactly when `t` is a
prefix of the input; the remaining input comes first, as in nom. -/
def tagB (t : Bytes) (input : Bytes) : Option (Bytes × Bytes) :=
  if t.isPrefixOf input then some (input.drop t.length, t) else none

/-- Model of nom `take_until(t)` on complete input: scan for the first
occurrence of `t`, return the bytes before it and leave the input
positioned at `t`; fail when `t` does not occur. -/
def takeUntil (t : Bytes) : Bytes → Option (Bytes × Bytes)
  | [] => if t.isPrefixOf ([] : Bytes) then some ([], []) else none
  | b :: rest =>
    if t.isPrefixOf (b :: rest) then some (b :: rest, [])
    else
      match takeUntil t rest with
      | some (rem, taken) => some (rem, b :: taken)
      | none => none

/-- Fuelled repetition, the engine for nom `many0(p)`. -/
def many0F {α : Type} (p : Bytes → Option (Bytes × α)) : Nat → Bytes → Bytes × List α
  | 0, input => (input, [])
  | Nat.succ fuel, input =>
    match p input with
    | some (rem, v) =>
      let q := many0F p fuel rem
      (q.1, v :: q.2)
    | none => (input, [])

/-- Model of nom `many0(p)` for a parser `p` that always consumes input:
fuel `input.length` then never runs out. -/
def many0 {α : Type} (p : Bytes → Option (Bytes × α)) (input : Bytes) : Bytes × List α :=
  many0F p input.length input

/-- parser.rs `multi_line_single`: `delimited(tag(" "), take_until("\n"), tag("\n"))`.
The identical combinator expression also appears inside `handle_key_name`. -/
def multi_line_single (input : Bytes) : Option (Bytes × Bytes) :=
  match tagB [32] input with
  | some (r1, _) =>
    match takeUntil [10] r1 with
    | some (r2, v) =>
      match tagB [10] r2 with
      | some (r3, _) => some (r3, v)
      | none => none
    | none => none
  | none => none

/-- parser.rs `handle_key_name`: skip zero or more orphan continuation
lines (`many0(delimited(tag(" "), take_until("\n"), tag("\n")))`), keeping
only the remaining input. -/
def handle_key_name (input : Bytes) : Bytes :=
  (many0 multi_line_single input).1

/-- parser.rs `handle_key`: `preceded(handle_key_name, take_until(":"))`. -/
def handle_key (input : Bytes) : Option (Bytes × Bytes) :=
  takeUntil [58] (handle_key_name input)

/-- parser.rs `key_name`: `verify(handle_key, ...)` — the extracted key
must be nonempty and must not start with a newline. -/
def key_name (input : Bytes) : Option (Bytes × Bytes) :=
  match handle_key input with
  | some (rem, k) =>
    match k with
    | [] => none
    | b :: k' => if b = 10 then none else some (rem, b :: k')
  | none => none

def isSpaceTab (b : Nat) : Bool := b == 32 || b == 9

/-- nom `space0`: drop leading spaces and tabs. -/
def space0 (input : Bytes) : Bytes := input.dropWhile isSpaceTab

def isWs (b : Nat) : Bool := b == 32 || b == 9 || b == 10 || b == 13

/-- nom `multispace0`: drop leading spaces, tabs, newlines and CRs. -/
def multispace0 (input : Bytes) : Bytes := input.dropWhile isWs

/-- parser.rs `separator`: `tuple((char(':'), space0))`, result discarded. -/
def separator (input : Bytes) : Option (Bytes × Unit) :=
  match input with
  | 58 :: rest => some (space0 rest, ())
  | _ => none

/-- parser.rs `single_line`: `terminated(take_until("\n"), tag("\n"))`. -/
def single_line (input : Bytes) : Option (Bytes × Bytes) :=
  match takeUntil [10] input with
  | some (r1, v) =>
    match tagB [10] r1 with
    | some (r2, _) => some (r2, v)
    | none => none
  | none => none

/-- parser.rs `multi_line`: `many0(multi_line_single)`. -/
def multi_line (input : Bytes) : Bytes × List Bytes :=
  many0 multi_line_single input

/-- The join performed by `multi_to_one`: concatenate the continuation
lines with a newline between consecutive lines and none at the end. -/
def joinNl : List Bytes → Bytes
  | [] => []
  | [x] => x
  | x :: y :: rest => x ++ 10 :: joinNl (y :: rest)

/-- parser.rs `multi_to_one`: run `multi_line`, join the recovered lines
with newlines, and return the ORIGINAL input as the remaining input
(`Ok((input, s))` — the continuation lines are not consumed here). -/
def multi_to_one (input : Bytes) : Bytes × Bytes :=
  (input, joinNl (multi_line input).2)

/-- parser.rs `value_field`: `tuple((single_line, multi_to_one))`. -/
def value_field (input : Bytes) : Option (Bytes × (Bytes × Bytes)) :=
  match single_line input with
  | some (r1, one) =>
    let m := multi_to_one r1
    some (m.1, (one, m.2))
  | none => none

/-- parser.rs `key_value`: `separated_pair(key_name, separator, value_field)`. -/
def key_value (input : Bytes) : Option (Bytes × (Bytes × (Bytes × Bytes))) :=
  match key_name input with
  | some (r1, k) =>
    match separator r1 with
    | some (r2, _) =>
      match value_field r2 with
      | some (r3, v) => some (r3, (k, v))
      | none => none
    | none => none
  | none => none

/-- parser.rs `single_package`: `terminated(many1(key_value), multispace0)`,
with `many1 p` unfolded as `p` followed by `many0 p`. -/
def single_package (input : Bytes) : Option (Bytes × List (Bytes × (Bytes × Bytes))) :=
  match key_value input with
  | some (r1, kv) =>
    let q := many0 key_value r1
    some (multispace0 q.1, kv :: q.2)
  | none => none

/-- One comment block: `delimited(tag("--"), take_until("-\n"), tag("-\n"))`. -/
def comment_single (input : Bytes) : Option (Bytes × Bytes) :=
  match tagB [45, 45] input with
  | some (r1, _) =>
    match takeUntil [45, 10] r1 with
    | some (r2, v) =>
      match tagB [45, 10] r2 with
      | some (r3, _) => some (r3, v)
      | none => none
    | none => none
  | none => none

/-- parser.rs `comment`: `many0` of one comment block, result discarded. -/
def comment (input : Bytes) : Bytes :=
  (many0 comment_single input).1

/-- One iteration of `multi_package`: `preceded(comment, single_package)`. -/
def package_step (input : Bytes) : Option (Bytes × List (Bytes × (Bytes × Bytes))) :=
  single_package (comment input)

/-- parser.rs `multi_package`: `many1(preceded(comment, single_package))`. -/
def multi_package (input : Bytes) : Option (Bytes × List (List (Bytes × (Bytes × Bytes)))) :=
  match package_step input with
  | some (r1, pv) =>
    let q := many0 package_step r1
    some (q.1, pv :: q.2)
  | none => none

/-- lib.rs `Item`: a field value, one line or many. -/
inductive Item where
  | OneLine : Bytes → Item
  | MultiLine : List Bytes → Item
  deriving DecidableEq

/-- Modelled from the spec: the error module (src/error.rs) is not among
the sources; section 7 of the spec defines exactly two error kinds, a
grammar (nom) failure and a UTF-8 decoding failure. -/
inductive ParseErr where
  | nomErr : ParseErr
  | utf8Err : ParseErr
  deriving DecidableEq

def isCont (b : Nat) : Bool := decide (128 ≤ b ∧ b ≤ 191)

def utf8Second3 (b1 b2 : Nat) : Bool :=
  if b1 = 224 then decide (160 ≤ b2 ∧ b2 ≤ 191)
  else if b1 = 237 then decide (128 ≤ b2 ∧ b2 ≤ 159)
  else isCont b2

def utf8Second4 (b1 b2 : Nat) : Bool :=
  if b1 = 240 then decide (144 ≤ b2 ∧ b2 ≤ 191)
  else if b1 = 244 then decide (128 ≤ b2 ∧ b2 ≤ 143)
  else isCont b2

/-- Continuation bytes of a 2-byte scalar. -/
def utf8Tail1 : Bytes → Option Bytes
  | b2 :: r => if isCont b2 then some r else none
  | [] => none

/-- Continuation bytes of a 3-byte scalar with lead byte `b1`. -/
def utf8Tail2 (b1 : Nat) : Bytes → Option Bytes
  | b2 :: b3 :: r => if utf8Second3 b1 b2 && isCont b3 then some r else none
  | _ => none

/-- Continuation bytes of a 4-byte scalar with lead byte `b1`. -/
def utf8Tail3 (b1 : Nat) : Bytes → Option Bytes
  | b2 :: b3 :: b4 :: r => if utf8Second4 b1 b2 && isCont b3 && isCont b4 then some r else none
  | _ => none

/-- Consume one UTF-8 encoded scalar value from the front (RFC 3629). -/
def utf8Step : Bytes → Option Bytes
  | [] => none
  | b :: rest =>
    if b ≤ 127 then some rest
    else if b ≤ 193 then none
    else if b ≤ 223 then utf8Tail1 rest
    else if b ≤ 239 then utf8Tail2 b rest
    else if b ≤ 244 then utf8Tail3 b rest
    else none

def validUtf8F : Nat → Bytes → Bool
  | _, [] => true
  | 0, _ :: _ => false
  | Nat.succ fuel, b :: rest =>
    match utf8Step (b :: rest) with
    | some r => validUtf8F fuel r
    | none => false

/-- Validity of a byte sequence as UTF-8 (RFC 3629), the success
condition of Rust `std::str::from_utf8`: the whole sequence decomposes
into encoded scalar values.  Each step consumes at least one byte, so
fuel `l.length` is exact. -/
def validUtf8 (l : Bytes) : Bool := validUtf8F l.length l

/-- Rust `std::str::from_utf8`: a validity check that returns the same
bytes (a `&str` is its byte slice), or a decoding error. -/
def from_utf8 (l : Bytes) : Except ParseErr Bytes :=
  if validUtf8 l then Except.ok l else Except.error ParseErr.utf8Err

/-- UTF-8 validity as a scalar-value-chunk derivation, used to reason
about splitting a valid byte sequence at an ASCII byte. -/
inductive ValidU8 : Bytes → Prop where
  | nil : ValidU8 []
  | one : ∀ b rest, b ≤ 127 → ValidU8 rest → ValidU8 (b :: rest)
  | two : ∀ b1 b2 rest, 194 ≤ b1 → b1 ≤ 223 → isCont b2 = true → ValidU8 rest →
      ValidU8 (b1 :: b2 :: rest)
  | three : ∀ b1 b2 b3 rest, 224 ≤ b1 → b1 ≤ 239 → utf8Second3 b1 b2 = true →
      isCont b3 = true → ValidU8 rest → ValidU8 (b1 :: b2 :: b3 :: rest)
  | four : ∀ b1 b2 b3 b4 rest, 240 ≤ b1 → b1 ≤ 244 → utf8Second4 b1 b2 = true →
      isCont b3 = true → isCont b4 = true → ValidU8 rest →
      ValidU8 (b1 :: b2 :: b3 :: b4 :: rest)

/-- Rust `str::split('\n')` at byte level: `\n` is ASCII, so on valid
UTF-8 this coincides with character-level splitting.  Splitting the empty
string yields one empty piece. -/
def splitNl : Bytes → List Bytes
  | [] => [[]]
  | b :: rest =>
    if b = 10 then [] :: splitNl rest
    else
      match splitNl rest with
      | [] => [[b]]
      | x :: xs => (b :: x) :: xs

/-- `IndexMap::insert`: replace in place when the key exists, keeping its
position, otherwise append at the end. -/
def indexInsert : List (Bytes × Item) → Bytes → Item → List (Bytes × Item)
  | [], k, v => [(k, v)]
  | (k', v') :: rest, k, v =>
    if k' = k then (k', v) :: rest else (k', v') :: indexInsert rest k v

/-- The loop body of lib.rs `to_map`, with the map built so far as
accumulator. -/
def to_map_go : List (Bytes × (Bytes × Bytes)) → List (Bytes × Item) →
    Except ParseErr (List (Bytes × Item))
  | [], acc => Except.ok acc
  | (k, (one, multi)) :: rest, acc =>
    match from_utf8 k with
    | Except.error e => Except.error e
    | Except.ok kk =>
      if one = [] then
        match from_utf8 multi with
        | Except.error e => Except.error e
        | Except.ok m => to_map_go rest (indexInsert acc kk (Item.MultiLine (splitNl m)))
      else
        match from_utf8 one with
        | Except.error e => Except.error e
        | Except.ok o => to_map_go rest (indexInsert acc kk (Item.OneLine o))

/-- lib.rs `to_map`. -/
def to_map (pv : List (Bytes × (Bytes × Bytes))) : Except ParseErr (List (Bytes × Item)) :=
  to_map_go pv []

/-- lib.rs `parse_one`: run `single_package`, DISCARD the remaining
input, and build the map. -/
def parse_one (s : Bytes) : Except ParseErr (List (Bytes × Item)) :=
  match single_package s with
  | none => Except.error ParseErr.nomErr
  | some (_, pv) => to_map pv

/-- The result-building loop of `parse_multi`: convert each raw stanza,
stopping at the first failure. -/
def to_maps : List (List (Bytes × (Bytes × Bytes))) →
    Except ParseErr (List (List (Bytes × Item)))
  | [] => Except.ok []
  | pv :: rest =>
    match to_map pv with
    | Except.error e => Except.error e
    | Except.ok m =>
      match to_maps rest with
      | Except.error e => Except.error e
      | Except.ok ms => Except.ok (m :: ms)

/-- lib.rs `parse_multi`: empty input gives an empty document; otherwise
run `multi_package`, DISCARD the remaining input, and build the maps. -/
def parse_multi (s : Bytes) : Except ParseErr (List (List (Bytes × Item))) :=
  if s = [] then Except.ok []
  else
    match multi_package s with
    | none => Except.error ParseErr.nomErr
    | some (_, pvs) => to_maps pvs

/-- The `s += ...` appends done by lib.rs `parse_back` for one value. -/
def parse_back_item (s : Bytes) (v : Item) : Bytes :=
  match v with
  | Item.OneLine x => s ++ 32 :: (x ++ [10])
  | Item.MultiLine xs => xs.foldl (fun t l => t ++ (32 :: 32 :: (l ++ [10]))) (s ++ [10])

/-- One field of lib.rs `parse_back`: emit the key, a colon, then the value. -/
def parse_back_field (s : Bytes) (kv : Bytes × Item) : Bytes :=
  parse_back_item (s ++ kv.1 ++ [58]) kv.2

/-- One stanza of lib.rs `parse_back`: all fields then a blank line. -/
def parse_back_stanza (s : Bytes) (st : List (Bytes × Item)) : Bytes :=
  (st.foldl parse_back_field s) ++ [10]

/-- lib.rs `parse_back`: serialize a document by accumulation. -/
def parse_back (m : List (List (Bytes × Item))) : Bytes :=
  m.foldl parse_back_stanza []

/-- One serialized continuation line: two spaces, the line, a newline
(spec section 4.6). -/
def emitLine (l : Bytes) : Bytes := 32 :: 32 :: (l ++ [10])

/-- Spec-side renderer for one value, following section 4.6 word by word. -/
def renderItem : Item → Bytes
  | Item.OneLine x => 32 :: (x ++ [10])
  | Item.MultiLine xs => 10 :: (xs.map emitLine).flatten

/-- Spec-side renderer for one field: the key, a colon, the value. -/
def renderField (kv : Bytes × Item) : Bytes := kv.1 ++ 58 :: renderItem kv.2

/-- Spec-side renderer for one stanza: the fields then one blank line. -/
def renderStanza (st : List (Bytes × Item)) : Bytes := (st.map renderField).flatten ++ [10]

/-- Spec-side renderer for a document. -/
def renderDoc (m : List (List (Bytes × Item))) : Bytes := (m.map renderStanza).flatten

/-- Bytes of an ASCII string literal (all example inputs are ASCII, where
code points and UTF-8 bytes agree). -/
def strBytes (s : String) : Bytes := s.data.map Char.toNat

/-- The classification rule of spec section 4.2 applied to one raw value. -/
def classify (one multi : Bytes) : Item :=
  if one = [] then Item.MultiLine (splitNl multi) else Item.OneLine one

/-- A key that serializes and reparses cleanly: nonempty, valid UTF-8,
free of colons, and not starting with whitespace. -/
def goodKeyB : Bytes → Bool
  | [] => false
  | b :: k => !isWs b && validUtf8 (b :: k) && !(b :: k).contains 58

/-- A one-line value that serializes and reparses cleanly: nonempty, valid
UTF-8, free of newlines, and not starting with a space or tab (the
separator eats those). -/
def goodOneB : Bytes → Bool
  | [] => false
  | b :: v => !isSpaceTab b && validUtf8 (b :: v) && !(b :: v).contains 10

/-- A continuation line that serializes and reparses: valid UTF-8 and
free of newlines. -/
def goodLineB (l : Bytes) : Bool := validUtf8 l && !l.contains 10

def goodItemB : Item → Bool
  | Item.OneLine v => goodOneB v
  | Item.MultiLine vs => !vs.isEmpty && vs.all goodLineB

def goodFieldB (kv : Bytes × Item) : Bool := goodKeyB kv.1 && goodItemB kv.2

/-- A key not beginning with two dashes (a stanza starting this way could
be mistaken for a comment block by `multi_package`). -/
def noDD (k : Bytes) : Bool := !(([45, 45] : Bytes).isPrefixOf k)

/-- The transformation a serialize-reparse cycle applies to one value:
every recovered continuation line gains one leading space, because the
serializer emits two spaces but the grammar strips exactly one. -/
def mapItem : Item → Item
  | Item.OneLine v => Item.OneLine v
  | Item.MultiLine vs => Item.MultiLine (vs.map (fun l => 32 :: l))

def mapField (kv : Bytes × Item) : Bytes × Item := (kv.1, mapItem kv.2)

/-- The raw pair produced by `key_value` on a well-behaved rendered field. -/
def rawField : Bytes × Item → Bytes × (Bytes × Bytes)
  | (k, Item.OneLine v) => (k, (v, []))
  | (k, Item.MultiLine vs) => (k, ([], joinNl (vs.map (fun l => 32 :: l))))

def itemLines : Item → List Bytes
  | Item.OneLine _ => []
  | Item.MultiLine vs => vs

/-- Serialized form of a list of continuation lines. -/
def bodyOf (ls : List Bytes) : Bytes := (ls.map emitLine).flatten

/-- The continuation lines that remain unconsumed at the end of a stanza:
those of the last field, or, for an empty stanza, the lines carried in. -/
def trailLines : List (Bytes × Item) → List Bytes → List Bytes
  | [], ls => ls
  | [f], _ => itemLines f.2
  | _ :: g :: rest, ls => trailLines (g :: rest) ls

/-- The spans of one raw field that lib.rs `to_map` decodes: the key, and
the single-line candidate or, when that one is empty, the joined
continuation blob. -/
def fieldSpansOk (f : Bytes × (Bytes × Bytes)) : Bool :=
  validUtf8 f.1 && validUtf8 (if f.2.1 = [] then f.2.2 else f.2.1)

/-- The map `to_map` builds on success, written directly from the
classification rule of spec section 4.2. -/
def classifyFold (pv : List (Bytes × (Bytes × Bytes))) : List (Bytes × Item) :=
  pv.foldl (fun acc f => indexInsert acc f.1 (classify f.2.1 f.2.2)) []

instance {ε α : Type} [DecidableEq ε] [DecidableEq α] : DecidableEq (Except ε α) := fun x y =>
  match x, y with
  | Except.ok a, Except.ok b =>
    if h : a = b then isTrue (by rw [h]) else isFalse (fun hh => h (Except.ok.inj hh))
  | Except.error a, Except.error b =>
    if h : a = b then isTrue (by rw [h]) else isFalse (fun hh => h (Except.error.inj hh))
  | Except.ok _, Except.error _ => isFalse (fun hh => Except.noConfusion hh)
  | Except.error _, Except.ok _ => isFalse (fun hh => Except.noConfusion hh)

/-! ## Basic facts about the primitive recognizers -/

theorem eq_append_of_pre : ∀ (t l : Bytes), t.isPrefixOf l = true → l = t ++ l.drop t.length := by
  intro t
  induction t with
  | nil => intro l _; simp
  | cons a t' ih =>
    intro l h
    cases l with
    | nil => simp [List.isPrefixOf] at h
    | cons b l' =>
      simp only [List.isPrefixOf, Bool.and_eq_true, beq_iff_eq] at h
      obtain ⟨rfl, h2⟩ := h
      simpa using ih l' h2

theorem pre_self_append : ∀ (t r : Bytes), t.isPrefixOf (t ++ r) = true := by
  intro t
  induction t with
  | nil => intro r; simp [List.isPrefixOf]
  | cons a t' ih => intro r; simp [List.isPrefixOf, ih r]

theorem tagB_spec {t input rem v : Bytes} (h : tagB t input = some (rem, v)) :
    v = t ∧ input = t ++ rem := by
  unfold tagB at h
  split at h
  · next hp =>
    injection h with h
    obtain ⟨h1, h2⟩ := Prod.mk.inj h
    refine ⟨h2.symm, ?_⟩
    rw [← h1]
    exact eq_append_of_pre t input hp
  · cases h

theorem tagB_self (t r : Bytes) : tagB t (t ++ r) = some (r, t) := by
  unfold tagB
  rw [if_pos (pre_self_append t r)]
  simp

theorem takeUntil_spec (t : Bytes) : ∀ {input rem taken : Bytes},
    takeUntil t input = some (rem, taken) → input = taken ++ rem ∧ t.isPrefixOf rem = true := by
  intro input
  induction input with
  | nil =>
    intro rem taken h
    unfold takeUntil at h
    split at h
    · next hp =>
      injection h with h
      obtain ⟨h1, h2⟩ := Prod.mk.inj h
      subst h1; subst h2
      exact ⟨rfl, hp⟩
    · cases h
  | cons b rest ih =>
    intro rem taken h
    unfold takeUntil at h
    split at h
    · next hp =>
      injection h with h
      obtain ⟨h1, h2⟩ := Prod.mk.inj h
      subst h1; subst h2
      exact ⟨rfl, hp⟩
    · next hp =>
      cases hh : takeUntil t rest with
      | none => rw [hh] at h; cases h
      | some p =>
        obtain ⟨r, tk⟩ := p
        rw [hh] at h
        injection h with h
        obtain ⟨h1, h2⟩ := Prod.mk.inj h
        subst h1; subst h2
        obtain ⟨he, hpre⟩ := ih hh
        constructor
        · rw [List.cons_append, ← he]
        · exact hpre

/-- Scanning for a single absent byte fails. -/
theorem takeUntil_one_none {d : Nat} : ∀ {w : Bytes}, d ∉ w → takeUntil [d] w = none := by
  intro w
  induction w with
  | nil => intro _; rfl
  | cons b rest ih =>
    intro hd
    have hb : (d == b) = false := by
      simp only [beq_eq_false_iff_ne, ne_eq]
      exact fun hh => hd (by simp [hh])
    have hrec := ih (fun hh => hd (List.mem_cons_of_mem b hh))
    simp [takeUntil, List.isPrefixOf, hb, hrec]

/-- Scanning for a single byte finds its first occurrence. -/
theorem takeUntil_one_app {d : Nat} : ∀ {a : Bytes} (r : Bytes), d ∉ a →
    takeUntil [d] (a ++ d :: r) = some (d :: r, a) := by
  intro a
  induction a with
  | nil =>
    intro r _
    simp [takeUntil, List.isPrefixOf]
  | cons b a' ih =>
    intro r hd
    have hb : (d == b) = false := by
      simp only [beq_eq_false_iff_ne, ne_eq]
      exact fun hh => hd (by simp [hh])
    have hrec := ih r (fun hh => hd (List.mem_cons_of_mem b hh))
    simp [takeUntil, List.cons_append, List.isPrefixOf, hb, hrec]

/-- Scanning for dash-newline in a comment body free of newlines. -/
theorem takeUntil_dash_app : ∀ {u : Bytes} (r : Bytes), 10 ∉ u →
    takeUntil [45, 10] (u ++ 45 :: 10 :: r) = some (45 :: 10 :: r, u) := by
  intro u
  induction u with
  | nil =>
    intro r _
    simp [takeUntil, List.isPrefixOf]
  | cons b u' ih =>
    intro r hd
    have hrec := ih r (fun hh => hd (List.mem_cons_of_mem b hh))
    have hp : ([45, 10] : Bytes).isPrefixOf (b :: (u' ++ 45 :: 10 :: r)) = false := by
      cases u' with
      | nil => simp [List.isPrefixOf]
      | cons c u'' =>
        have hc : ((10 : Nat) == c) = false := by
          simp only [beq_eq_false_iff_ne, ne_eq]
          intro hh
          exact hd (by rw [← hh] at *; exact List.mem_cons_of_mem b (List.mem_cons_self 10 u''))
        simp [List.isPrefixOf, hc]
    simp [takeUntil, List.cons_append, hp, hrec]

/-! ## Fuel is irrelevant for `many0` because the repeated parsers consume -/

theorem many0F_nil {α : Type} (p : Bytes → Option (Bytes × α))
    (hp : ∀ i r v, p i = some (r, v) → r.length < i.length) :
    ∀ fuel, many0F p fuel [] = ([], []) := by
  intro fuel
  cases fuel with
  | zero => rfl
  | succ f =>
    unfold many0F
    cases hh : p [] with
    | none => rfl
    | some q =>
      obtain ⟨r, v⟩ := q
      exact absurd (hp [] r v hh) (by simp)

theorem many0F_congr {α : Type} (p : Bytes → Option (Bytes × α))
    (hp : ∀ i r v, p i = some (r, v) → r.length < i.length) :
    ∀ (n f g : Nat) (input : Bytes), input.length ≤ n → input.length ≤ f → input.length ≤ g →
      many0F p f input = many0F p g input := by
  intro n
  induction n with
  | zero =>
    intro f g input hn _ _
    have : input = [] := List.length_eq_zero.mp (Nat.le_zero.mp hn)
    subst this
    rw [many0F_nil p hp, many0F_nil p hp]
  | succ n' ih =>
    intro f g input hn hf hg
    cases input with
    | nil => rw [many0F_nil p hp, many0F_nil p hp]
    | cons b rest =>
      have hfpos : 0 < f := Nat.lt_of_lt_of_le (by simp) hf
      have hgpos : 0 < g := Nat.lt_of_lt_of_le (by simp) hg
      obtain ⟨f', rfl⟩ := Nat.exists_eq_succ_of_ne_zero (Nat.pos_iff_ne_zero.mp hfpos)
      obtain ⟨g', rfl⟩ := Nat.exists_eq_succ_of_ne_zero (Nat.pos_iff_ne_zero.mp hgpos)
      unfold many0F
      cases hh : p (b :: rest) with
      | none => rfl
      | some q =>
        obtain ⟨r, v⟩ := q
        have hr : r.length < (b :: rest).length := hp _ _ _ hh
        have heq : many0F p f' r = many0F p g' r := by
          refine ih f' g' r ?_ ?_ ?_ <;> simp at hr hn hf hg ⊢ <;> omega
        dsimp only
        rw [heq]

theorem many0_none {α : Type} {p : Bytes → Option (Bytes × α)} {input : Bytes}
    (h : p input = none) : many0 p input = (input, []) := by
  unfold many0
  cases input with
  | nil => rfl
  | cons b rest =>
    show many0F p (rest.length + 1) (b :: rest) = _
    unfold many0F
    rw [h]

theorem many0_some {α : Type} {p : Bytes → Option (Bytes × α)}
    (hp : ∀ i r v, p i = some (r, v) → r.length < i.length)
    {input r : Bytes} {v : α} (h : p input = some (r, v)) :
    many0 p input = ((many0 p r).1, v :: (many0 p r).2) := by
  cases input with
  | nil => exact absurd (hp [] r v h) (by simp)
  | cons b rest =>
    have key : many0 p (b :: rest) = ((many0F p rest.length r).1, v :: (many0F p rest.length r).2) := by
      show many0F p (rest.length + 1) (b :: rest) = _
      simp only [many0F, h]
    rw [key]
    have hr : r.length < (b :: rest).length := hp _ _ _ h
    have heq : many0F p rest.length r = many0 p r := by
      show _ = many0F p r.length r
      refine many0F_congr p hp rest.length _ _ r ?_ ?_ ?_ <;> simp at hr ⊢ <;> omega
    rw [heq]

theorem many0_rem_le {α : Type} {p : Bytes → Option (Bytes × α)}
    (hp : ∀ i r v, p i = some (r, v) → r.length < i.length) :
    ∀ (fuel : Nat) (input : Bytes), (many0F p fuel input).1.length ≤ input.length := by
  intro fuel
  induction fuel with
  | zero => intro input; simp [many0F]
  | succ f ih =>
    intro input
    unfold many0F
    cases hh : p input with
    | none => simp
    | some q =>
      obtain ⟨r, v⟩ := q
      simp only
      exact Nat.le_of_lt (Nat.lt_of_le_of_lt (ih r) (hp _ _ _ hh))

/-! ## Inversion and consumption facts for the grammar functions -/

theorem mls_inv {i r v : Bytes} (h : multi_line_single i = some (r, v)) :
    i = 32 :: (v ++ 10 :: r) := by
  unfold multi_line_single at h
  cases h1 : tagB [32] i with
  | none => rw [h1] at h; cases h
  | some q1 =>
    obtain ⟨r1, t1⟩ := q1
    rw [h1] at h
    dsimp only at h
    cases h2 : takeUntil [10] r1 with
    | none => rw [h2] at h; cases h
    | some q2 =>
      obtain ⟨r2, v2⟩ := q2
      rw [h2] at h
      dsimp only at h
      cases h3 : tagB [10] r2 with
      | none => rw [h3] at h; cases h
      | some q3 =>
        obtain ⟨r3, t3⟩ := q3
        rw [h3] at h
        dsimp only at h
        injection h with h
        obtain ⟨hr, hv⟩ := Prod.mk.inj h
        subst hr; subst hv
        obtain ⟨_, hi⟩ := tagB_spec h1
        obtain ⟨hr1, _⟩ := takeUntil_spec _ h2
        obtain ⟨_, hr2⟩ := tagB_spec h3
        rw [hi, hr1, hr2]
        rfl

theorem mls_consumes : ∀ (i r : Bytes) (v : Bytes), multi_line_single i = some (r, v) →
    r.length < i.length := by
  intro i r v h
  rw [mls_inv h]
  simp only [List.length_cons, List.length_append]
  omega

theorem mls_app {l : Bytes} (rest : Bytes) (h10 : 10 ∉ l) :
    multi_line_single (32 :: (l ++ 10 :: rest)) = some (rest, l) := by
  unfold multi_line_single
  have e1 : tagB [32] (32 :: (l ++ 10 :: rest)) = some (l ++ 10 :: rest, [32]) := by
    simpa using tagB_self [32] (l ++ 10 :: rest)
  rw [e1]
  dsimp only
  rw [takeUntil_one_app rest h10]
  dsimp only
  have e3 : tagB [10] (10 :: rest) = some (rest, [10]) := by
    simpa using tagB_self [10] rest
  rw [e3]

theorem mls_cons_ne {b : Nat} (t : Bytes) (hb : b ≠ 32) : multi_line_single (b :: t) = none := by
  have hbb : ((32 : Nat) == b) = false := beq_eq_false_iff_ne.mpr (fun hh => hb hh.symm)
  simp [multi_line_single, tagB, List.isPrefixOf, hbb]

theorem hkn_nil : handle_key_name [] = [] := rfl

theorem hkn_cons_ne {b : Nat} (t : Bytes) (hb : b ≠ 32) : handle_key_name (b :: t) = b :: t := by
  show (many0 multi_line_single (b :: t)).1 = b :: t
  rw [many0_none (mls_cons_ne t hb)]

theorem hkn_le (input : Bytes) : (handle_key_name input).length ≤ input.length :=
  many0_rem_le mls_consumes input.length input

theorem key_name_inv {i r k : Bytes} (h : key_name i = some (r, k)) :
    handle_key_name i = k ++ r ∧ k ≠ [] := by
  unfold key_name handle_key at h
  cases h1 : takeUntil [58] (handle_key_name i) with
  | none => rw [h1] at h; cases h
  | some q =>
    obtain ⟨r1, k1⟩ := q
    rw [h1] at h
    dsimp only at h
    cases k1 with
    | nil => cases h
    | cons b k' =>
      dsimp only at h
      by_cases hb : b = 10
      · rw [if_pos hb] at h; cases h
      · rw [if_neg hb] at h
        injection h with h
        obtain ⟨h2, h3⟩ := Prod.mk.inj h
        subst h2; subst h3
        obtain ⟨he, _⟩ := takeUntil_spec _ h1
        exact ⟨he, by simp⟩

theorem separator_inv {i r : Bytes} {u : Unit} (h : separator i = some (r, u)) :
    ∃ t, i = 58 :: t ∧ r = space0 t := by
  unfold separator at h
  split at h
  · next t =>
    injection h with h
    obtain ⟨h1, _⟩ := Prod.mk.inj h
    exact ⟨t, rfl, h1.symm⟩
  · cases h

theorem single_line_inv {i r one : Bytes} (h : single_line i = some (r, one)) :
    i = one ++ 10 :: r := by
  unfold single_line at h
  cases h1 : takeUntil [10] i with
  | none => rw [h1] at h; cases h
  | some q1 =>
    obtain ⟨r1, v1⟩ := q1
    rw [h1] at h
    dsimp only at h
    cases h2 : tagB [10] r1 with
    | none => rw [h2] at h; cases h
    | some q2 =>
      obtain ⟨r2, t2⟩ := q2
      rw [h2] at h
      dsimp only at h
      injection h with h
      obtain ⟨h3, h4⟩ := Prod.mk.inj h
      subst h3; subst h4
      obtain ⟨he, _⟩ := takeUntil_spec _ h1
      obtain ⟨_, he2⟩ := tagB_spec h2
      rw [he, he2]
      rfl

theorem single_line_app {v : Bytes} (rest : Bytes) (h10 : 10 ∉ v) :
    single_line (v ++ 10 :: rest) = some (rest, v) := by
  unfold single_line
  rw [takeUntil_one_app rest h10]
  dsimp only
  have e : tagB [10] (10 :: rest) = some (rest, [10]) := by
    simpa using tagB_self [10] rest
  rw [e]

theorem value_field_inv {i r : Bytes} {v : Bytes × Bytes} (h : value_field i = some (r, v)) :
    single_line i = some (r, v.1) ∧ v.2 = joinNl (multi_line r).2 := by
  unfold value_field at h
  cases h1 : single_line i with
  | none => rw [h1] at h; cases h
  | some q =>
    obtain ⟨r1, one⟩ := q
    rw [h1] at h
    dsimp only [multi_to_one] at h
    injection h with h
    obtain ⟨h2, h3⟩ := Prod.mk.inj h
    subst h2
    subst h3
    exact ⟨rfl, rfl⟩

theorem length_dropWhile_le (p : Nat → Bool) : ∀ l : Bytes, (l.dropWhile p).length ≤ l.length := by
  intro l
  induction l with
  | nil => simp
  | cons b t ih =>
    rw [List.dropWhile_cons]
    split
    · exact Nat.le_trans ih (by simp)
    · simp

theorem length_space0_le (t : Bytes) : (space0 t).length ≤ t.length :=
  length_dropWhile_le _ t

theorem length_multispace0_le (t : Bytes) : (multispace0 t).length ≤ t.length :=
  length_dropWhile_le _ t

theorem key_value_consumes : ∀ (i r : Bytes) (v : Bytes × (Bytes × Bytes)),
    key_value i = some (r, v) → r.length < i.length := by
  intro i r v h
  unfold key_value at h
  cases h1 : key_name i with
  | none => rw [h1] at h; cases h
  | some q1 =>
    obtain ⟨r1, k⟩ := q1
    rw [h1] at h
    dsimp only at h
    cases h2 : separator r1 with
    | none => rw [h2] at h; cases h
    | some q2 =>
      obtain ⟨r2, u⟩ := q2
      rw [h2] at h
      dsimp only at h
      cases h3 : value_field r2 with
      | none => rw [h3] at h; cases h
      | some q3 =>
        obtain ⟨r3, v3⟩ := q3
        rw [h3] at h
        dsimp only at h
        injection h with h
        obtain ⟨h4, _⟩ := Prod.mk.inj h
        subst h4
        obtain ⟨hk, hkne⟩ := key_name_inv h1
        obtain ⟨t, ht, hr2⟩ := separator_inv h2
        obtain ⟨hsl, _⟩ := value_field_inv h3
        have hi : r1.length < i.length := by
          have h5 := hkn_le i
          rw [hk] at h5
          have hk0 : k.length ≠ 0 := fun hh => hkne (List.length_eq_zero.mp hh)
          simp only [List.length_append] at h5
          omega
        have hii : r2.length < r1.length := by
          have h6 := length_space0_le t
          rw [ht, hr2]
          simp only [List.length_cons]
          omega
        have hiii : r3.length < r2.length := by
          have hx := single_line_inv hsl
          rw [hx]
          simp only [List.length_append, List.length_cons]
          omega
        omega

theorem single_package_consumes : ∀ (i r : Bytes) (pv : List (Bytes × (Bytes × Bytes))),
    single_package i = some (r, pv) → r.length < i.length := by
  intro i r pv h
  unfold single_package at h
  cases h1 : key_value i with
  | none => rw [h1] at h; cases h
  | some q1 =>
    obtain ⟨r1, kv⟩ := q1
    rw [h1] at h
    dsimp only at h
    injection h with h
    obtain ⟨h2, _⟩ := Prod.mk.inj h
    subst h2
    have ha : (many0 key_value r1).1.length ≤ r1.length :=
      many0_rem_le key_value_consumes r1.length r1
    have hb := length_multispace0_le (many0 key_value r1).1
    have hc := key_value_consumes i r1 kv h1
    omega

theorem cs_inv {i r v : Bytes} (h : comment_single i = some (r, v)) :
    i = 45 :: 45 :: (v ++ 45 :: 10 :: r) := by
  unfold comment_single at h
  cases h1 : tagB [45, 45] i with
  | none => rw [h1] at h; cases h
  | some q1 =>
    obtain ⟨r1, t1⟩ := q1
    rw [h1] at h
    dsimp only at h
    cases h2 : takeUntil [45, 10] r1 with
    | none => rw [h2] at h; cases h
    | some q2 =>
      obtain ⟨r2, v2⟩ := q2
      rw [h2] at h
      dsimp only at h
      cases h3 : tagB [45, 10] r2 with
      | none => rw [h3] at h; cases h
      | some q3 =>
        obtain ⟨r3, t3⟩ := q3
        rw [h3] at h
        dsimp only at h
        injection h with h
        obtain ⟨hr, hv⟩ := Prod.mk.inj h
        subst hr; subst hv
        obtain ⟨_, hi⟩ := tagB_spec h1
        obtain ⟨hr1, _⟩ := takeUntil_spec _ h2
        obtain ⟨_, hr2⟩ := tagB_spec h3
        rw [hi, hr1, hr2]
        rfl

theorem cs_consumes : ∀ (i r v : Bytes), comment_single i = some (r, v) →
    r.length < i.length := by
  intro i r v h
  rw [cs_inv h]
  simp only [List.length_cons, List.length_append]
  omega

theorem comment_single_none {input : Bytes} (h : ([45, 45] : Bytes).isPrefixOf input = false) :
    comment_single input = none := by
  simp [comment_single, tagB, h]

theorem comment_id {input : Bytes} (h : ([45, 45] : Bytes).isPrefixOf input = false) :
    comment input = input := by
  show (many0 comment_single input).1 = input
  rw [many0_none (comment_single_none h)]

theorem comment_le (input : Bytes) : (comment input).length ≤ input.length :=
  many0_rem_le cs_consumes input.length input

theorem package_step_consumes : ∀ (i r : Bytes) (pv : List (Bytes × (Bytes × Bytes))),
    package_step i = some (r, pv) → r.length < i.length := by
  intro i r pv h
  unfold package_step at h
  have h1 := single_package_consumes (comment i) r pv h
  have h2 := comment_le i
  omega

/-! ## Running the grammar over serializer output -/

theorem space0_cons32 (r : Bytes) : space0 (32 :: r) = space0 r := by
  simp [space0, List.dropWhile_cons, isSpaceTab]

theorem space0_stop {b : Nat} (r : Bytes) (h : isSpaceTab b = false) : space0 (b :: r) = b :: r := by
  simp [space0, List.dropWhile_cons, h]

theorem multispace0_cons {b : Nat} (r : Bytes) (h : isWs b = true) :
    multispace0 (b :: r) = multispace0 r := by
  simp [multispace0, List.dropWhile_cons, h]

theorem multispace0_stop {b : Nat} (r : Bytes) (h : isWs b = false) :
    multispace0 (b :: r) = b :: r := by
  simp [multispace0, List.dropWhile_cons, h]

theorem hkn_skip : ∀ (ls : List Bytes) {b : Nat} (next : Bytes), (∀ l ∈ ls, 10 ∉ l) → b ≠ 32 →
    handle_key_name (bodyOf ls ++ b :: next) = b :: next := by
  intro ls
  induction ls with
  | nil =>
    intro b next _ hb
    simpa [bodyOf] using hkn_cons_ne next hb
  | cons l ls' ih =>
    intro b next h10 hb
    have hmem : 10 ∉ l := h10 l (by simp)
    have e : bodyOf (l :: ls') ++ b :: next
        = 32 :: ((32 :: l) ++ 10 :: (bodyOf ls' ++ b :: next)) := by
      simp [bodyOf, emitLine, List.append_assoc]
    rw [e]
    have hmls := mls_app (bodyOf ls' ++ b :: next) (show 10 ∉ 32 :: l by simp [hmem])
    show (many0 multi_line_single _).1 = _
    rw [many0_some mls_consumes hmls]
    exact ih next (fun x hx => h10 x (by simp [hx])) hb

theorem multi_line_body : ∀ (vs : List Bytes) {b : Nat} (next : Bytes),
    (∀ l ∈ vs, 10 ∉ l) → b ≠ 32 →
    multi_line (bodyOf vs ++ b :: next) = (b :: next, vs.map (fun l => 32 :: l)) := by
  intro vs
  induction vs with
  | nil =>
    intro b next _ hb
    show many0 multi_line_single _ = _
    simpa [bodyOf] using many0_none (mls_cons_ne next hb)
  | cons l vs' ih =>
    intro b next h10 hb
    have hmem : 10 ∉ l := h10 l (by simp)
    have e : bodyOf (l :: vs') ++ b :: next
        = 32 :: ((32 :: l) ++ 10 :: (bodyOf vs' ++ b :: next)) := by
      simp [bodyOf, emitLine, List.append_assoc]
    show many0 multi_line_single _ = _
    rw [e]
    have hmls := mls_app (bodyOf vs' ++ b :: next) (show 10 ∉ 32 :: l by simp [hmem])
    rw [many0_some mls_consumes hmls]
    have := ih next (fun l hl => h10 l (by simp [hl])) hb
    rw [show many0 multi_line_single (bodyOf vs' ++ b :: next)
        = multi_line (bodyOf vs' ++ b :: next) from rfl, this]
    simp

theorem goodKeyB_facts {k : Bytes} (hk : goodKeyB k = true) :
    k ≠ [] ∧ 58 ∉ k ∧ validUtf8 k = true ∧
      ∀ b t, k = b :: t → (b ≠ 32 ∧ b ≠ 9 ∧ b ≠ 10 ∧ b ≠ 13) := by
  cases k with
  | nil => cases hk
  | cons b t =>
    simp only [goodKeyB, Bool.and_eq_true, Bool.not_eq_true'] at hk
    obtain ⟨⟨hws, hvu⟩, hct⟩ := hk
    have h58 : 58 ∉ b :: t := by simpa using hct
    refine ⟨by simp, h58, hvu, ?_⟩
    intro b' t' he
    injection he with he1 he2
    subst he1
    simp [isWs] at hws
    omega

theorem goodOneB_facts {v : Bytes} (hv : goodOneB v = true) :
    v ≠ [] ∧ 10 ∉ v ∧ validUtf8 v = true ∧
      ∀ b t, v = b :: t → (b ≠ 32 ∧ b ≠ 9) := by
  cases v with
  | nil => cases hv
  | cons b t =>
    simp only [goodOneB, Bool.and_eq_true, Bool.not_eq_true'] at hv
    obtain ⟨⟨hst, hvu⟩, hct⟩ := hv
    have h10 : 10 ∉ b :: t := by simpa using hct
    refine ⟨by simp, h10, hvu, ?_⟩
    intro b' t' he
    injection he with he1 he2
    subst he1
    simp [isSpaceTab] at hst
    omega

theorem key_name_app (ls : List Bytes) {k : Bytes} (r : Bytes) (h10 : ∀ l ∈ ls, 10 ∉ l)
    (hk : goodKeyB k = true) :
    key_name (bodyOf ls ++ (k ++ 58 :: r)) = some (58 :: r, k) := by
  obtain ⟨hne, h58, _, hhead⟩ := goodKeyB_facts hk
  cases k with
  | nil => exact absurd rfl hne
  | cons b k' =>
    obtain ⟨hb32, _, hb10, _⟩ := hhead b k' rfl
    have hskip : handle_key_name (bodyOf ls ++ (b :: (k' ++ 58 :: r))) = b :: (k' ++ 58 :: r) :=
      hkn_skip ls _ h10 hb32
    unfold key_name handle_key
    rw [show bodyOf ls ++ ((b :: k') ++ 58 :: r) = bodyOf ls ++ (b :: (k' ++ 58 :: r)) by simp]
    rw [hskip]
    have htu : takeUntil [58] ((b :: k') ++ 58 :: r) = some (58 :: r, b :: k') :=
      takeUntil_one_app r h58
    rw [show b :: (k' ++ 58 :: r) = (b :: k') ++ 58 :: r by simp] at *
    rw [htu]
    dsimp only
    rw [if_neg hb10]

theorem single_line_cons10 (X : Bytes) : single_line (10 :: X) = some (X, []) := by
  have h := single_line_app (v := []) X (by simp)
  simpa using h

theorem key_name_none_of_hkn10 {i X : Bytes} (h : handle_key_name i = 10 :: X) :
    key_name i = none := by
  unfold key_name handle_key
  rw [h]
  cases htu : takeUntil [58] (10 :: X) with
  | none => rfl
  | some q =>
    obtain ⟨rem, tk⟩ := q
    obtain ⟨he, hpre⟩ := takeUntil_spec _ htu
    cases tk with
    | nil => rfl
    | cons c tk' =>
      have hc : c = 10 := by
        have h2 := congrArg (fun l : Bytes => l.head?) he
        simpa using h2.symm
      subst hc
      dsimp only
      rw [if_pos rfl]

theorem trailLines_indep : ∀ (st : List (Bytes × Item)), st ≠ [] →
    ∀ ls ls', trailLines st ls = trailLines st ls' := by
  intro st
  induction st with
  | nil => intro h; exact absurd rfl h
  | cons g st' ih =>
    intro _ ls ls'
    cases st' with
    | nil => rfl
    | cons g2 st'' => exact ih (by simp) ls ls'

theorem trailLines_cons (f : Bytes × Item) (st : List (Bytes × Item)) (ls : List Bytes) :
    trailLines (f :: st) ls = trailLines st (itemLines f.2) := by
  cases st with
  | nil => rfl
  | cons g st' => exact trailLines_indep (g :: st') (by simp) ls (itemLines f.2)

/-- The byte just after a rendered field is never a space: either the
next field begins with its key, or the blank line of the stanza follows. -/
theorem rend_head (st : List (Bytes × Item)) (rest2 : Bytes)
    (h : ∀ f ∈ st, goodFieldB f = true) :
    ∃ b next, (st.map renderField).flatten ++ 10 :: rest2 = b :: next ∧ b ≠ 32 := by
  cases st with
  | nil => exact ⟨10, rest2, by simp, by omega⟩
  | cons f st' =>
    have hf : goodFieldB f = true := h f (by simp)
    have hk : goodKeyB f.1 = true := by
      simp only [goodFieldB, Bool.and_eq_true] at hf
      exact hf.1
    obtain ⟨hne, _, _, hhead⟩ := goodKeyB_facts hk
    cases hk1 : f.1 with
    | nil => exact absurd hk1 hne
    | cons b k' =>
      obtain ⟨hb32, _, _, _⟩ := hhead b k' hk1
      refine ⟨b, k' ++ 58 :: renderItem f.2 ++ ((st'.map renderField).flatten ++ 10 :: rest2), ?_, hb32⟩
      simp [renderField, hk1, List.append_assoc]

theorem isSpaceTab_false {b : Nat} (h32 : b ≠ 32) (h9 : b ≠ 9) : isSpaceTab b = false := by
  simp [isSpaceTab, h32, h9]

theorem key_value_rend_field (ls : List Bytes) (f : Bytes × Item)
    {b : Nat} {next : Bytes} (hb : b ≠ 32)
    (h10 : ∀ l ∈ ls, 10 ∉ l) (hf : goodFieldB f = true) :
    key_value (bodyOf ls ++ (renderField f ++ (b :: next)))
      = some (bodyOf (itemLines f.2) ++ (b :: next), rawField f) := by
  obtain ⟨k, item⟩ := f
  simp only [goodFieldB, Bool.and_eq_true] at hf
  obtain ⟨hk, hitem⟩ := hf
  cases item with
  | OneLine v =>
    obtain ⟨hvne, hv10, _, hvhead⟩ := goodOneB_facts hitem
    rw [show bodyOf ls ++ (renderField (k, Item.OneLine v) ++ (b :: next))
        = bodyOf ls ++ (k ++ 58 :: (32 :: (v ++ 10 :: (b :: next)))) by
      simp [renderField, renderItem, List.append_assoc]]
    unfold key_value
    rw [key_name_app ls _ h10 hk]
    dsimp only
    rw [show separator (58 :: (32 :: (v ++ 10 :: (b :: next))))
        = some (space0 (32 :: (v ++ 10 :: (b :: next))), ()) from rfl]
    dsimp only
    rw [space0_cons32]
    cases hv : v with
    | nil => exact absurd hv hvne
    | cons c v' =>
      obtain ⟨hc32, hc9⟩ := hvhead c v' hv
      rw [← hv]
      rw [show space0 (v ++ 10 :: (b :: next)) = v ++ 10 :: (b :: next) by
        rw [hv, List.cons_append]
        exact space0_stop _ (isSpaceTab_false hc32 hc9)]
      unfold value_field
      rw [single_line_app (b :: next) hv10]
      dsimp only [multi_to_one]
      rw [show multi_line (b :: next) = (b :: next, []) from
        many0_none (mls_cons_ne next hb)]
      simp [rawField, itemLines, bodyOf, joinNl]
  | MultiLine vs =>
    have hvs10 : ∀ l ∈ vs, 10 ∉ l := by
      simp only [goodItemB, Bool.and_eq_true, List.all_eq_true] at hitem
      intro l hl
      have := hitem.2 l hl
      simp only [goodLineB, Bool.and_eq_true, Bool.not_eq_true'] at this
      simpa using this.2
    rw [show bodyOf ls ++ (renderField (k, Item.MultiLine vs) ++ (b :: next))
        = bodyOf ls ++ (k ++ 58 :: (10 :: (bodyOf vs ++ (b :: next)))) by
      simp [renderField, renderItem, bodyOf, List.append_assoc]]
    unfold key_value
    rw [key_name_app ls _ h10 hk]
    dsimp only
    rw [show separator (58 :: (10 :: (bodyOf vs ++ (b :: next))))
        = some (space0 (10 :: (bodyOf vs ++ (b :: next))), ()) from rfl]
    dsimp only
    rw [space0_stop _ (by simp [isSpaceTab])]
    unfold value_field
    rw [single_line_cons10]
    dsimp only [multi_to_one]
    rw [multi_line_body vs _ hvs10 hb]
    simp [rawField, itemLines]

theorem key_values_rend : ∀ (st : List (Bytes × Item)) (ls : List Bytes) (rest2 : Bytes),
    (∀ f ∈ st, goodFieldB f = true) → (∀ l ∈ ls, 10 ∉ l) →
    many0 key_value (bodyOf ls ++ ((st.map renderField).flatten ++ 10 :: rest2))
      = (bodyOf (trailLines st ls) ++ 10 :: rest2, st.map rawField) := by
  intro st
  induction st with
  | nil =>
    intro ls rest2 _ hls
    have hskip : handle_key_name (bodyOf ls ++ 10 :: rest2) = 10 :: rest2 :=
      hkn_skip ls rest2 hls (by omega)
    have hkv : key_value (bodyOf ls ++ 10 :: rest2) = none := by
      unfold key_value
      rw [key_name_none_of_hkn10 hskip]
    simp only [List.map_nil, List.flatten_nil, List.nil_append, trailLines]
    rw [many0_none hkv]
  | cons f st' ih =>
    intro ls rest2 hgood hls
    obtain ⟨b, next, hbn, hb⟩ := rend_head st' rest2 (fun g hg => hgood g (by simp [hg]))
    have hf : goodFieldB f = true := hgood f (by simp)
    have e : bodyOf ls ++ (((f :: st').map renderField).flatten ++ 10 :: rest2)
        = bodyOf ls ++ (renderField f ++ (b :: next)) := by
      rw [← hbn]
      simp [List.append_assoc]
    rw [e]
    have hkv := @key_value_rend_field ls f b next hb hls hf
    rw [many0_some key_value_consumes hkv]
    have hlines : ∀ l ∈ itemLines f.2, 10 ∉ l := by
      cases hi : f.2 with
      | OneLine v => simp [itemLines]
      | MultiLine vs =>
        have hitem : goodItemB f.2 = true := by
          simp only [goodFieldB, Bool.and_eq_true] at hf
          exact hf.2
        rw [hi] at hitem
        simp only [goodItemB, Bool.and_eq_true, List.all_eq_true] at hitem
        intro l hl
        simp only [itemLines] at hl
        have := hitem.2 l hl
        simp only [goodLineB, Bool.and_eq_true, Bool.not_eq_true'] at this
        simpa using this.2
    have ihh := ih (itemLines f.2) rest2 (fun g hg => hgood g (by simp [hg])) hlines
    rw [hbn] at ihh
    rw [ihh]
    rw [trailLines_cons]
    simp

theorem single_package_rend (st : List (Bytes × Item)) (rest2 : Bytes) (hne : st ≠ [])
    (hgood : ∀ f ∈ st, goodFieldB f = true) :
    single_package ((st.map renderField).flatten ++ 10 :: rest2)
      = some (multispace0 (bodyOf (trailLines st []) ++ 10 :: rest2), st.map rawField) := by
  cases st with
  | nil => exact absurd rfl hne
  | cons f st' =>
    obtain ⟨b, next, hbn, hb⟩ := rend_head st' rest2 (fun g hg => hgood g (by simp [hg]))
    have hf : goodFieldB f = true := hgood f (by simp)
    have e : ((f :: st').map renderField).flatten ++ 10 :: rest2
        = bodyOf [] ++ (renderField f ++ (b :: next)) := by
      rw [← hbn]
      simp [bodyOf, List.append_assoc]
    unfold single_package
    rw [e]
    have hkv := @key_value_rend_field [] f b next hb (by simp) hf
    rw [hkv]
    dsimp only
    have ihh := key_values_rend st' (itemLines f.2) rest2 (fun g hg => hgood g (by simp [hg]))
      (by
        cases hi : f.2 with
        | OneLine v => simp [itemLines]
        | MultiLine vs =>
          have hitem : goodItemB f.2 = true := by
            simp only [goodFieldB, Bool.and_eq_true] at hf
            exact hf.2
          rw [hi] at hitem
          simp only [goodItemB, Bool.and_eq_true, List.all_eq_true] at hitem
          intro l hl
          simp only [itemLines] at hl
          have := hitem.2 l hl
          simp only [goodLineB, Bool.and_eq_true, Bool.not_eq_true'] at this
          simpa using this.2)
    rw [hbn] at ihh
    rw [ihh]
    rw [trailLines_cons]
    simp

/-! ## UTF-8 validity: equivalence with the chunk derivation, closure
under append, and splitting at an ASCII byte -/

theorem isCont_ge {b : Nat} (h : isCont b = true) : 128 ≤ b := by
  simp only [isCont, decide_eq_true_eq] at h
  omega

theorem utf8Second3_ge {b1 b2 : Nat} (h : utf8Second3 b1 b2 = true) : 128 ≤ b2 := by
  unfold utf8Second3 at h
  split at h
  · simp only [decide_eq_true_eq] at h; omega
  · split at h
    · simp only [decide_eq_true_eq] at h; omega
    · exact isCont_ge h

theorem utf8Second4_ge {b1 b2 : Nat} (h : utf8Second4 b1 b2 = true) : 128 ≤ b2 := by
  unfold utf8Second4 at h
  split at h
  · simp only [decide_eq_true_eq] at h; omega
  · split at h
    · simp only [decide_eq_true_eq] at h; omega
    · exact isCont_ge h

theorem utf8Tail1_cons (b2 : Nat) (r : Bytes) :
    utf8Tail1 (b2 :: r) = (if isCont b2 then some r else none) := rfl

theorem utf8Tail2_cons (b1 b2 b3 : Nat) (r : Bytes) :
    utf8Tail2 b1 (b2 :: b3 :: r) = (if utf8Second3 b1 b2 && isCont b3 then some r else none) := rfl

theorem utf8Tail3_cons (b1 b2 b3 b4 : Nat) (r : Bytes) :
    utf8Tail3 b1 (b2 :: b3 :: b4 :: r)
      = (if utf8Second4 b1 b2 && isCont b3 && isCont b4 then some r else none) := rfl

theorem utf8Step_cons (b : Nat) (rest : Bytes) : utf8Step (b :: rest) =
    (if b ≤ 127 then some rest
     else if b ≤ 193 then none
     else if b ≤ 223 then utf8Tail1 rest
     else if b ≤ 239 then utf8Tail2 b rest
     else if b ≤ 244 then utf8Tail3 b rest
     else none) := rfl

theorem utf8Tail1_inv {t r : Bytes} (h : utf8Tail1 t = some r) :
    ∃ b2, t = b2 :: r ∧ isCont b2 = true := by
  cases t with
  | nil => cases h
  | cons b2 r' =>
    rw [utf8Tail1_cons] at h
    split at h
    · next hc =>
      injection h with h
      exact ⟨b2, by rw [h], hc⟩
    · cases h

theorem utf8Tail2_inv {b1 : Nat} {t r : Bytes} (h : utf8Tail2 b1 t = some r) :
    ∃ b2 b3, t = b2 :: b3 :: r ∧ utf8Second3 b1 b2 = true ∧ isCont b3 = true := by
  cases t with
  | nil => cases h
  | cons b2 t' =>
    cases t' with
    | nil => cases h
    | cons b3 r' =>
      rw [utf8Tail2_cons] at h
      split at h
      · next hc =>
        injection h with h
        simp only [Bool.and_eq_true] at hc
        exact ⟨b2, b3, by rw [h], hc.1, hc.2⟩
      · cases h

theorem utf8Tail3_inv {b1 : Nat} {t r : Bytes} (h : utf8Tail3 b1 t = some r) :
    ∃ b2 b3 b4, t = b2 :: b3 :: b4 :: r ∧ utf8Second4 b1 b2 = true ∧
      isCont b3 = true ∧ isCont b4 = true := by
  cases t with
  | nil => cases h
  | cons b2 t' =>
    cases t' with
    | nil => cases h
    | cons b3 t'' =>
      cases t'' with
      | nil => cases h
      | cons b4 r' =>
        rw [utf8Tail3_cons] at h
        split at h
        · next hc =>
          injection h with h
          simp only [Bool.and_eq_true] at hc
          exact ⟨b2, b3, b4, by rw [h], hc.1.1, hc.1.2, hc.2⟩
        · cases h

theorem utf8Step_consumes : ∀ {i r : Bytes}, utf8Step i = some r → r.length < i.length := by
  intro i r h
  cases i with
  | nil => cases h
  | cons b rest =>
    rw [utf8Step_cons] at h
    split at h
    · injection h with h
      subst h
      simp only [List.length_cons]
      omega
    · split at h
      · cases h
      · split at h
        · obtain ⟨b2, he, _⟩ := utf8Tail1_inv h
          subst he
          simp only [List.length_cons]
          omega
        · split at h
          · obtain ⟨b2, b3, he, _, _⟩ := utf8Tail2_inv h
            subst he
            simp only [List.length_cons]
            omega
          · split at h
            · obtain ⟨b2, b3, b4, he, _, _, _⟩ := utf8Tail3_inv h
              subst he
              simp only [List.length_cons]
              omega
            · cases h

theorem validUtf8F_congr : ∀ (n f g : Nat) (l : Bytes), l.length ≤ n → l.length ≤ f →
    l.length ≤ g → validUtf8F f l = validUtf8F g l := by
  intro n
  induction n with
  | zero =>
    intro f g l hn _ _
    have : l = [] := List.length_eq_zero.mp (Nat.le_zero.mp hn)
    subst this
    cases f <;> cases g <;> rfl
  | succ n' ih =>
    intro f g l hn hf hg
    cases l with
    | nil => cases f <;> cases g <;> rfl
    | cons b rest =>
      obtain ⟨f', rfl⟩ := Nat.exists_eq_succ_of_ne_zero (by simp at hf; omega : f ≠ 0)
      obtain ⟨g', rfl⟩ := Nat.exists_eq_succ_of_ne_zero (by simp at hg; omega : g ≠ 0)
      rw [validUtf8F, validUtf8F]
      cases hs : utf8Step (b :: rest) with
      | none => rfl
      | some r =>
        dsimp only
        have hr := utf8Step_consumes hs
        refine ih f' g' r ?_ ?_ ?_ <;>
          simp only [List.length_cons] at hn hf hg hr ⊢ <;> omega

theorem vu_step_some {l r : Bytes} (h : utf8Step l = some r) : validUtf8 l = validUtf8 r := by
  cases l with
  | nil => cases h
  | cons b rest =>
    show validUtf8F (rest.length + 1) (b :: rest) = _
    rw [validUtf8F, h]
    dsimp only
    have hr := utf8Step_consumes h
    show validUtf8F rest.length r = validUtf8F r.length r
    refine validUtf8F_congr rest.length _ _ r ?_ ?_ ?_ <;>
      simp only [List.length_cons] at hr ⊢ <;> omega

theorem vu_step_none {b : Nat} {rest : Bytes} (h : utf8Step (b :: rest) = none) :
    validUtf8 (b :: rest) = false := by
  show validUtf8F (rest.length + 1) (b :: rest) = false
  rw [validUtf8F, h]

theorem vu_cons_127 {b : Nat} (hb : b ≤ 127) (l : Bytes) :
    validUtf8 (b :: l) = validUtf8 l :=
  vu_step_some (by simp [utf8Step, hb])

theorem step_chunk : ∀ {l r : Bytes}, utf8Step l = some r → ValidU8 r → ValidU8 l := by
  intro l r h hr
  cases l with
  | nil => cases h
  | cons b rest =>
    rw [utf8Step_cons] at h
    split at h
    · next h127 =>
      injection h with h
      subst h
      exact ValidU8.one _ _ h127 hr
    · next h127 =>
      split at h
      · cases h
      · next h193 =>
        split at h
        · next h223 =>
          obtain ⟨b2, he, hc⟩ := utf8Tail1_inv h
          subst he
          exact ValidU8.two b b2 r (by omega) (by omega) hc hr
        · next h223 =>
          split at h
          · next h239 =>
            obtain ⟨b2, b3, he, hs, hc⟩ := utf8Tail2_inv h
            subst he
            exact ValidU8.three b b2 b3 r (by omega) (by omega) hs hc hr
          · next h239 =>
            split at h
            · next h244 =>
              obtain ⟨b2, b3, b4, he, hs, hc, hc4⟩ := utf8Tail3_inv h
              subst he
              exact ValidU8.four b b2 b3 b4 r (by omega) (by omega) hs hc hc4 hr
            · cases h

theorem vu_to_ind : ∀ (n : Nat) (l : Bytes), l.length ≤ n → validUtf8 l = true → ValidU8 l := by
  intro n
  induction n with
  | zero =>
    intro l hl _
    have : l = [] := List.length_eq_zero.mp (Nat.le_zero.mp hl)
    subst this
    exact ValidU8.nil
  | succ n' ih =>
    intro l hl hv
    cases l with
    | nil => exact ValidU8.nil
    | cons b rest =>
      cases hs : utf8Step (b :: rest) with
      | none => rw [vu_step_none hs] at hv; cases hv
      | some r =>
        rw [vu_step_some hs] at hv
        have hr := utf8Step_consumes hs
        refine step_chunk hs (ih r ?_ hv)
        simp only [List.length_cons] at hl hr ⊢
        omega

theorem ind_to_vu : ∀ {l : Bytes}, ValidU8 l → validUtf8 l = true := by
  intro l h
  induction h with
  | nil => rfl
  | one b rest hb _ ih =>
    rw [vu_step_some (show utf8Step (b :: rest) = some rest by simp [utf8Step, hb])]
    exact ih
  | two b1 b2 rest h1 h2 hc _ ih =>
    have hs : utf8Step (b1 :: b2 :: rest) = some rest := by
      rw [utf8Step_cons, if_neg (by omega), if_neg (by omega), if_pos h2,
        utf8Tail1_cons, if_pos hc]
    rw [vu_step_some hs]
    exact ih
  | three b1 b2 b3 rest h1 h2 hs3 hc _ ih =>
    have hs : utf8Step (b1 :: b2 :: b3 :: rest) = some rest := by
      rw [utf8Step_cons, if_neg (by omega), if_neg (by omega), if_neg (by omega), if_pos h2,
        utf8Tail2_cons, if_pos (by simp [hs3, hc])]
    rw [vu_step_some hs]
    exact ih
  | four b1 b2 b3 b4 rest h1 h2 hs4 hc hc4 _ ih =>
    have hs : utf8Step (b1 :: b2 :: b3 :: b4 :: rest) = some rest := by
      rw [utf8Step_cons, if_neg (by omega), if_neg (by omega), if_neg (by omega),
        if_neg (by omega), if_pos h2,
        utf8Tail3_cons, if_pos (by simp [hs4, hc, hc4])]
    rw [vu_step_some hs]
    exact ih

theorem vu_append {a b : Bytes} (ha : validUtf8 a = true) (hb : validUtf8 b = true) :
    validUtf8 (a ++ b) = true := by
  refine ind_to_vu ?_
  have hb' := vu_to_ind b.length b (le_refl _) hb
  have ha' := vu_to_ind a.length a (le_refl _) ha
  clear ha hb
  induction ha' with
  | nil => simpa using hb'
  | one c rest h1 _ ih => exact ValidU8.one c (rest ++ b) h1 ih
  | two c1 c2 rest h1 h2 hc _ ih => exact ValidU8.two c1 c2 (rest ++ b) h1 h2 hc ih
  | three c1 c2 c3 rest h1 h2 hs hc _ ih =>
    exact ValidU8.three c1 c2 c3 (rest ++ b) h1 h2 hs hc ih
  | four c1 c2 c3 c4 rest h1 h2 hs hc hc4 _ ih =>
    exact ValidU8.four c1 c2 c3 c4 (rest ++ b) h1 h2 hs hc hc4 ih

theorem vu_split_ind : ∀ {w : Bytes}, ValidU8 w → ∀ xs (d : Nat) ys, w = xs ++ d :: ys →
    d ≤ 127 → ValidU8 xs ∧ ValidU8 (d :: ys) := by
  intro w h
  induction h with
  | nil =>
    intro xs d ys he _
    exact absurd he.symm (by simp)
  | one b rest hb hrest ih =>
    intro xs d ys he hd
    cases xs with
    | nil =>
      simp only [List.nil_append] at he
      injection he with he1 he2
      subst he1; subst he2
      exact ⟨ValidU8.nil, ValidU8.one _ _ hb hrest⟩
    | cons x xs' =>
      rw [List.cons_append] at he
      injection he with he1 he2
      subst he1
      obtain ⟨h1, h2⟩ := ih xs' d ys he2 hd
      exact ⟨ValidU8.one _ _ hb h1, h2⟩
  | two b1 b2 rest h1 h2 hc hrest ih =>
    intro xs d ys he hd
    cases xs with
    | nil =>
      simp only [List.nil_append] at he
      injection he with he1 _
      omega
    | cons x xs' =>
      rw [List.cons_append] at he
      injection he with he1 he2
      subst he1
      cases xs' with
      | nil =>
        simp only [List.nil_append] at he2
        injection he2 with he3 _
        have := isCont_ge hc
        omega
      | cons x2 xs'' =>
        rw [List.cons_append] at he2
        injection he2 with he3 he4
        subst he3
        obtain ⟨hA, hB⟩ := ih xs'' d ys he4 hd
        exact ⟨ValidU8.two _ _ _ h1 h2 hc hA, hB⟩
  | three b1 b2 b3 rest h1 h2 hs hc hrest ih =>
    intro xs d ys he hd
    cases xs with
    | nil =>
      simp only [List.nil_append] at he
      injection he with he1 _
      omega
    | cons x xs' =>
      rw [List.cons_append] at he
      injection he with he1 he2
      subst he1
      cases xs' with
      | nil =>
        simp only [List.nil_append] at he2
        injection he2 with he3 _
        have := utf8Second3_ge hs
        omega
      | cons x2 xs'' =>
        rw [List.cons_append] at he2
        injection he2 with he3 he4
        subst he3
        cases xs'' with
        | nil =>
          simp only [List.nil_append] at he4
          injection he4 with he5 _
          have := isCont_ge hc
          omega
        | cons x3 xs''' =>
          rw [List.cons_append] at he4
          injection he4 with he5 he6
          subst he5
          obtain ⟨hA, hB⟩ := ih xs''' d ys he6 hd
          exact ⟨ValidU8.three _ _ _ _ h1 h2 hs hc hA, hB⟩
  | four b1 b2 b3 b4 rest h1 h2 hs hc hc4 hrest ih =>
    intro xs d ys he hd
    cases xs with
    | nil =>
      simp only [List.nil_append] at he
      injection he with he1 _
      omega
    | cons x xs' =>
      rw [List.cons_append] at he
      injection he with he1 he2
      subst he1
      cases xs' with
      | nil =>
        simp only [List.nil_append] at he2
        injection he2 with he3 _
        have := utf8Second4_ge hs
        omega
      | cons x2 xs'' =>
        rw [List.cons_append] at he2
        injection he2 with he3 he4
        subst he3
        cases xs'' with
        | nil =>
          simp only [List.nil_append] at he4
          injection he4 with he5 _
          have := isCont_ge hc
          omega
        | cons x3 xs''' =>
          rw [List.cons_append] at he4
          injection he4 with he5 he6
          subst he5
          cases xs''' with
          | nil =>
            simp only [List.nil_append] at he6
            injection he6 with he7 _
            have := isCont_ge hc4
            omega
          | cons x4 xs'''' =>
            rw [List.cons_append] at he6
            injection he6 with he7 he8
            subst he7
            obtain ⟨hA, hB⟩ := ih xs'''' d ys he8 hd
            exact ⟨ValidU8.four _ _ _ _ _ h1 h2 hs hc hc4 hA, hB⟩

theorem vu_split_app {xs : Bytes} {d : Nat} {ys : Bytes} (hd : d ≤ 127)
    (h : validUtf8 (xs ++ d :: ys) = true) :
    validUtf8 xs = true ∧ validUtf8 (d :: ys) = true := by
  obtain ⟨h1, h2⟩ := vu_split_ind (vu_to_ind _ _ (le_refl _) h) xs d ys rfl hd
  exact ⟨ind_to_vu h1, ind_to_vu h2⟩

theorem vu_joinNl : ∀ {xs : List Bytes}, (∀ x ∈ xs, validUtf8 x = true) →
    validUtf8 (joinNl xs) = true := by
  intro xs
  induction xs with
  | nil => intro _; rfl
  | cons x xs' ih =>
    intro h
    cases xs' with
    | nil => exact h x (by simp)
    | cons y r =>
      rw [joinNl]
      refine vu_append (h x (by simp)) ?_
      rw [vu_cons_127 (by omega)]
      exact ih (fun z hz => h z (by simp [hz]))

/-! ## The map-building step -/

theorem splitNl_no10 : ∀ {x : Bytes}, 10 ∉ x → splitNl x = [x] := by
  intro x
  induction x with
  | nil => intro _; rfl
  | cons b t ih =>
    intro h
    have hb : b ≠ 10 := fun hh => h (by simp [hh])
    rw [splitNl, if_neg hb, ih (fun hh => h (by simp [hh]))]

theorem splitNl_app : ∀ {x : Bytes} (rest : Bytes), 10 ∉ x →
    splitNl (x ++ 10 :: rest) = x :: splitNl rest := by
  intro x
  induction x with
  | nil =>
    intro rest _
    rw [List.nil_append, splitNl, if_pos rfl]
  | cons b t ih =>
    intro rest h
    have hb : b ≠ 10 := fun hh => h (by simp [hh])
    rw [List.cons_append, splitNl, if_neg hb, ih rest (fun hh => h (by simp [hh]))]

theorem splitNl_joinNl : ∀ {xs : List Bytes}, xs ≠ [] → (∀ x ∈ xs, 10 ∉ x) →
    splitNl (joinNl xs) = xs := by
  intro xs
  induction xs with
  | nil => intro h _; exact absurd rfl h
  | cons x xs' ih =>
    intro _ h
    cases xs' with
    | nil => exact splitNl_no10 (h x (by simp))
    | cons y r =>
      rw [joinNl, splitNl_app _ (h x (by simp)), ih (by simp) (fun z hz => h z (by simp [hz]))]

theorem splitNl_ne_nil : ∀ (x : Bytes), splitNl x ≠ [] := by
  intro x
  cases x with
  | nil => simp [splitNl]
  | cons b t =>
    rw [splitNl]
    split
    · simp
    · cases h : splitNl t with
      | nil => simp
      | cons y ys => simp

theorem indexInsert_cons (k' : Bytes) (v' : Item) (rest : List (Bytes × Item))
    (k : Bytes) (v : Item) :
    indexInsert ((k', v') :: rest) k v
      = (if k' = k then (k', v) :: rest else (k', v') :: indexInsert rest k v) := rfl

theorem indexInsert_fresh : ∀ (acc : List (Bytes × Item)) (k : Bytes) (v : Item),
    k ∉ acc.map Prod.fst → indexInsert acc k v = acc ++ [(k, v)] := by
  intro acc
  induction acc with
  | nil => intro k v _; rfl
  | cons p acc' ih =>
    intro k v hk
    obtain ⟨k', v'⟩ := p
    simp only [List.map_cons, List.mem_cons] at hk
    push_neg at hk
    rw [indexInsert_cons, if_neg (fun hh => hk.1 hh.symm), ih k v hk.2]
    rfl

theorem from_utf8_ok {l r : Bytes} (h : from_utf8 l = Except.ok r) :
    r = l ∧ validUtf8 l = true := by
  unfold from_utf8 at h
  split at h
  · next hv =>
    injection h with h
    exact ⟨h.symm, hv⟩
  · cases h

theorem from_utf8_err {l : Bytes} {e : ParseErr} (h : from_utf8 l = Except.error e) :
    e = ParseErr.utf8Err ∧ validUtf8 l = false := by
  unfold from_utf8 at h
  split at h
  · cases h
  · next hv =>
    injection h with h
    exact ⟨h.symm, by simpa using hv⟩

theorem to_map_go_cons (k one multi : Bytes) (rest : List (Bytes × (Bytes × Bytes)))
    (acc : List (Bytes × Item)) :
    to_map_go ((k, (one, multi)) :: rest) acc =
      (match from_utf8 k with
       | Except.error e => Except.error e
       | Except.ok kk =>
         if one = [] then
           match from_utf8 multi with
           | Except.error e => Except.error e
           | Except.ok m => to_map_go rest (indexInsert acc kk (Item.MultiLine (splitNl m)))
         else
           match from_utf8 one with
           | Except.error e => Except.error e
           | Except.ok o => to_map_go rest (indexInsert acc kk (Item.OneLine o))) := rfl

theorem to_map_go_step_one {k one multi : Bytes} {rest : List (Bytes × (Bytes × Bytes))}
    {acc : List (Bytes × Item)} (hk : validUtf8 k = true) (hone : one ≠ [])
    (ho : validUtf8 one = true) :
    to_map_go ((k, (one, multi)) :: rest) acc
      = to_map_go rest (indexInsert acc k (Item.OneLine one)) := by
  rw [to_map_go_cons]
  rw [show from_utf8 k = Except.ok k by simp [from_utf8, hk]]
  dsimp only
  rw [if_neg hone]
  rw [show from_utf8 one = Except.ok one by simp [from_utf8, ho]]

theorem to_map_go_step_multi {k multi : Bytes} {rest : List (Bytes × (Bytes × Bytes))}
    {acc : List (Bytes × Item)} (hk : validUtf8 k = true) (hm : validUtf8 multi = true) :
    to_map_go ((k, ([], multi)) :: rest) acc
      = to_map_go rest (indexInsert acc k (Item.MultiLine (splitNl multi))) := by
  rw [to_map_go_cons]
  rw [show from_utf8 k = Except.ok k by simp [from_utf8, hk]]
  dsimp only
  rw [if_pos rfl]
  rw [show from_utf8 multi = Except.ok multi by simp [from_utf8, hm]]

theorem to_map_go_raw : ∀ (st : List (Bytes × Item)) (acc : List (Bytes × Item)),
    (∀ f ∈ st, goodFieldB f = true) →
    (∀ k, k ∈ acc.map Prod.fst → k ∉ st.map Prod.fst) →
    (st.map Prod.fst).Nodup →
    to_map_go (st.map rawField) acc = Except.ok (acc ++ st.map mapField) := by
  intro st
  induction st with
  | nil => intro acc _ _ _; simp [to_map_go]
  | cons f st' ih =>
    intro acc hgood hdisj hnodup
    obtain ⟨k, item⟩ := f
    have hf := hgood (k, item) (by simp)
    simp only [goodFieldB, Bool.and_eq_true] at hf
    obtain ⟨hk, hitem⟩ := hf
    obtain ⟨hkne, hk58, hkvu, _⟩ := goodKeyB_facts hk
    have hfresh : k ∉ acc.map Prod.fst := fun hm => hdisj k hm (by simp)
    have hdisj2 : ∀ (X : Item) kk, kk ∈ (acc ++ [(k, X)]).map Prod.fst →
        kk ∉ st'.map Prod.fst := by
      intro X kk hm
      rw [List.map_append] at hm
      rcases List.mem_append.mp hm with h1 | h1
      · exact fun hh => hdisj kk h1 (by simp [hh])
      · simp only [List.map_cons, List.map_nil, List.mem_singleton] at h1
        subst h1
        simp only [List.map_cons, List.nodup_cons] at hnodup
        exact hnodup.1
    have hnodup2 : (st'.map Prod.fst).Nodup := by
      simp only [List.map_cons, List.nodup_cons] at hnodup
      exact hnodup.2
    cases item with
    | OneLine v =>
      obtain ⟨hvne, _, hvvu, _⟩ := goodOneB_facts hitem
      rw [List.map_cons, show rawField (k, Item.OneLine v) = (k, (v, [])) from rfl,
        to_map_go_step_one hkvu hvne hvvu, indexInsert_fresh acc k _ hfresh,
        ih (acc ++ [(k, Item.OneLine v)]) (fun g hg => hgood g (by simp [hg]))
          (hdisj2 (Item.OneLine v)) hnodup2]
      simp [mapField, mapItem, List.append_assoc]
    | MultiLine vs =>
      have hvsne : vs ≠ [] := by
        simp only [goodItemB, Bool.and_eq_true] at hitem
        have h1 := hitem.1
        simpa using h1
      have hlines : ∀ l ∈ vs, validUtf8 l = true ∧ 10 ∉ l := by
        simp only [goodItemB, Bool.and_eq_true, List.all_eq_true] at hitem
        intro l hl
        have h2 := hitem.2 l hl
        simp only [goodLineB, Bool.and_eq_true, Bool.not_eq_true'] at h2
        exact ⟨h2.1, by simpa using h2.2⟩
      have hjvu : validUtf8 (joinNl (vs.map (fun l => 32 :: l))) = true := by
        refine vu_joinNl ?_
        intro x hx
        simp only [List.mem_map] at hx
        obtain ⟨l, hl, rfl⟩ := hx
        rw [vu_cons_127 (by omega)]
        exact (hlines l hl).1
      have hsplit : splitNl (joinNl (vs.map (fun l => 32 :: l)))
          = vs.map (fun l => 32 :: l) := by
        refine splitNl_joinNl (by simpa using hvsne) ?_
        intro x hx
        simp only [List.mem_map] at hx
        obtain ⟨l, hl, rfl⟩ := hx
        simp only [List.mem_cons]
        push_neg
        exact ⟨by omega, (hlines l hl).2⟩
      rw [List.map_cons,
        show rawField (k, Item.MultiLine vs)
          = (k, ([], joinNl (vs.map (fun l => 32 :: l)))) from rfl,
        to_map_go_step_multi hkvu hjvu, hsplit, indexInsert_fresh acc k _ hfresh,
        ih (acc ++ [(k, Item.MultiLine (vs.map (fun l => 32 :: l)))])
          (fun g hg => hgood g (by simp [hg]))
          (hdisj2 (Item.MultiLine (vs.map (fun l => 32 :: l)))) hnodup2]
      simp [mapField, mapItem, List.append_assoc]

theorem to_map_raw (st : List (Bytes × Item)) (hgood : ∀ f ∈ st, goodFieldB f = true)
    (hnodup : (st.map Prod.fst).Nodup) :
    to_map (st.map rawField) = Except.ok (st.map mapField) := by
  have h := to_map_go_raw st [] hgood (by simp) hnodup
  simpa [to_map] using h

theorem to_map_go_classify : ∀ (pv : List (Bytes × (Bytes × Bytes))) (acc m : List (Bytes × Item)),
    to_map_go pv acc = Except.ok m →
    m = pv.foldl (fun acc f => indexInsert acc f.1 (classify f.2.1 f.2.2)) acc := by
  intro pv
  induction pv with
  | nil =>
    intro acc m h
    simp only [to_map_go] at h
    injection h with h
    simp [h.symm]
  | cons f pv' ih =>
    intro acc m h
    obtain ⟨k, one, multi⟩ := f
    rw [to_map_go_cons] at h
    cases hfk : from_utf8 k with
    | error e => rw [hfk] at h; cases h
    | ok kk =>
      rw [hfk] at h
      dsimp only at h
      obtain ⟨rfl, _⟩ := from_utf8_ok hfk
      by_cases hone : one = []
      · rw [if_pos hone] at h
        cases hfm : from_utf8 multi with
        | error e => rw [hfm] at h; cases h
        | ok m2 =>
          rw [hfm] at h
          dsimp only at h
          obtain ⟨rfl, _⟩ := from_utf8_ok hfm
          rw [ih _ m h]
          simp [classify, hone]
      · rw [if_neg hone] at h
        cases hfo : from_utf8 one with
        | error e => rw [hfo] at h; cases h
        | ok o2 =>
          rw [hfo] at h
          dsimp only at h
          obtain ⟨rfl, _⟩ := from_utf8_ok hfo
          rw [ih _ m h]
          simp [classify, hone]

theorem to_map_go_err : ∀ (pv : List (Bytes × (Bytes × Bytes))) (acc : List (Bytes × Item))
    (e : ParseErr), to_map_go pv acc = Except.error e → e = ParseErr.utf8Err := by
  intro pv
  induction pv with
  | nil => intro acc e h; cases h
  | cons f pv' ih =>
    intro acc e h
    obtain ⟨k, one, multi⟩ := f
    rw [to_map_go_cons] at h
    cases hfk : from_utf8 k with
    | error e2 =>
      rw [hfk] at h
      injection h with h
      rw [← h]
      exact (from_utf8_err hfk).1
    | ok kk =>
      rw [hfk] at h
      dsimp only at h
      by_cases hone : one = []
      · rw [if_pos hone] at h
        cases hfm : from_utf8 multi with
        | error e2 =>
          rw [hfm] at h
          injection h with h
          rw [← h]
          exact (from_utf8_err hfm).1
        | ok m2 =>
          rw [hfm] at h
          dsimp only at h
          exact ih _ e h
      · rw [if_neg hone] at h
        cases hfo : from_utf8 one with
        | error e2 =>
          rw [hfo] at h
          injection h with h
          rw [← h]
          exact (from_utf8_err hfo).1
        | ok o2 =>
          rw [hfo] at h
          dsimp only at h
          exact ih _ e h

theorem to_map_go_bad : ∀ (pv : List (Bytes × (Bytes × Bytes))) (acc : List (Bytes × Item)),
    (∃ f ∈ pv, fieldSpansOk f = false) →
    to_map_go pv acc = Except.error ParseErr.utf8Err := by
  intro pv
  induction pv with
  | nil => intro acc h; simp at h
  | cons f pv' ih =>
    intro acc hbad
    obtain ⟨k, one, multi⟩ := f
    by_cases hfk : validUtf8 k = true
    · by_cases hone : one = []
      · by_cases hfm : validUtf8 multi = true
        · -- this field decodes fine, so the bad field is further on
          rw [to_map_go_cons,
            show from_utf8 k = Except.ok k by simp [from_utf8, hfk]]
          dsimp only
          rw [if_pos hone,
            show from_utf8 multi = Except.ok multi by simp [from_utf8, hfm]]
          refine ih _ ?_
          obtain ⟨g, hg, hgbad⟩ := hbad
          rcases List.mem_cons.mp hg with h1 | h1
          · subst h1
            simp [fieldSpansOk, hone, hfk, hfm] at hgbad
          · exact ⟨g, h1, hgbad⟩
        · rw [to_map_go_cons,
            show from_utf8 k = Except.ok k by simp [from_utf8, hfk]]
          dsimp only
          rw [if_pos hone,
            show from_utf8 multi = Except.error ParseErr.utf8Err by
              simp [from_utf8, hfm]]
      · by_cases hfo : validUtf8 one = true
        · rw [to_map_go_cons,
            show from_utf8 k = Except.ok k by simp [from_utf8, hfk]]
          dsimp only
          rw [if_neg hone,
            show from_utf8 one = Except.ok one by simp [from_utf8, hfo]]
          refine ih _ ?_
          obtain ⟨g, hg, hgbad⟩ := hbad
          rcases List.mem_cons.mp hg with h1 | h1
          · subst h1
            simp [fieldSpansOk, hone, hfk, hfo] at hgbad
          · exact ⟨g, h1, hgbad⟩
        · rw [to_map_go_cons,
            show from_utf8 k = Except.ok k by simp [from_utf8, hfk]]
          dsimp only
          rw [if_neg hone,
            show from_utf8 one = Except.error ParseErr.utf8Err by
              simp [from_utf8, hfo]]
    · rw [to_map_go_cons,
        show from_utf8 k = Except.error ParseErr.utf8Err by simp [from_utf8, hfk]]

theorem to_map_go_ok_of_valid : ∀ (pv : List (Bytes × (Bytes × Bytes)))
    (acc : List (Bytes × Item)), (∀ f ∈ pv, fieldSpansOk f = true) →
    ∃ m, to_map_go pv acc = Except.ok m := by
  intro pv
  induction pv with
  | nil => intro acc _; exact ⟨acc, rfl⟩
  | cons f pv' ih =>
    intro acc hok
    obtain ⟨k, one, multi⟩ := f
    have hf := hok (k, (one, multi)) (by simp)
    simp only [fieldSpansOk, Bool.and_eq_true] at hf
    by_cases hone : one = []
    · rw [to_map_go_cons,
        show from_utf8 k = Except.ok k by simp [from_utf8, hf.1]]
      dsimp only
      have hfm : validUtf8 multi = true := by
        have h2 := hf.2
        rw [if_pos hone] at h2
        exact h2
      rw [if_pos hone, show from_utf8 multi = Except.ok multi by simp [from_utf8, hfm]]
      exact ih _ (fun g hg => hok g (by simp [hg]))
    · rw [to_map_go_cons,
        show from_utf8 k = Except.ok k by simp [from_utf8, hf.1]]
      dsimp only
      have hfo : validUtf8 one = true := by
        have h2 := hf.2
        rw [if_neg hone] at h2
        exact h2
      rw [if_neg hone, show from_utf8 one = Except.ok one by simp [from_utf8, hfo]]
      exact ih _ (fun g hg => hok g (by simp [hg]))

theorem to_maps_err : ∀ (pvs : List (List (Bytes × (Bytes × Bytes)))) (e : ParseErr),
    to_maps pvs = Except.error e → e = ParseErr.utf8Err := by
  intro pvs
  induction pvs with
  | nil => intro e h; cases h
  | cons pv pvs' ih =>
    intro e h
    rw [to_maps] at h
    cases h1 : to_map pv with
    | error e2 =>
      rw [h1] at h
      injection h with h
      rw [← h]
      exact to_map_go_err pv [] e2 h1
    | ok m =>
      rw [h1] at h
      dsimp only at h
      cases h2 : to_maps pvs' with
      | error e2 =>
        rw [h2] at h
        injection h with h
        rw [← h]
        exact ih e2 h2
      | ok ms => rw [h2] at h; cases h

theorem to_maps_bad : ∀ (pvs : List (List (Bytes × (Bytes × Bytes)))),
    (∃ st ∈ pvs, ∃ f ∈ st, fieldSpansOk f = false) →
    to_maps pvs = Except.error ParseErr.utf8Err := by
  intro pvs
  induction pvs with
  | nil => intro h; simp at h
  | cons pv pvs' ih =>
    intro hbad
    rw [to_maps]
    obtain ⟨st, hst, hf⟩ := hbad
    rcases List.mem_cons.mp hst with h1 | h1
    · subst h1
      rw [show to_map st = Except.error ParseErr.utf8Err from to_map_go_bad st [] hf]
    · cases h2 : to_map pv with
      | error e2 =>
        dsimp only
        rw [to_map_go_err pv [] e2 h2]
      | ok m =>
        dsimp only
        rw [ih ⟨st, h1, hf⟩]

theorem to_maps_raw : ∀ (D : List (List (Bytes × Item))),
    (∀ st ∈ D, ∀ f ∈ st, goodFieldB f = true) →
    (∀ st ∈ D, (st.map Prod.fst).Nodup) →
    to_maps (D.map (List.map rawField)) = Except.ok (D.map (List.map mapField)) := by
  intro D
  induction D with
  | nil => intro _ _; rfl
  | cons st D' ih =>
    intro h1 h2
    rw [List.map_cons, to_maps, to_map_raw st (h1 st (by simp)) (h2 st (by simp))]
    dsimp only
    rw [ih (fun s hs => h1 s (by simp [hs])) (fun s hs => h2 s (by simp [hs]))]
    rfl

/-! ## Document-level parsing of serializer output -/

theorem goodKeyB_head_ws {b : Nat} {k : Bytes} (h : goodKeyB (b :: k) = true) :
    isWs b = false := by
  simp only [goodKeyB, Bool.and_eq_true, Bool.not_eq_true'] at h
  exact h.1.1

theorem noDD_render {b : Nat} {k' : Bytes} (hdd : noDD (b :: k') = true) (r : Bytes) :
    ([45, 45] : Bytes).isPrefixOf ((b :: k') ++ 58 :: r) = false := by
  cases k' with
  | nil =>
    simp [List.isPrefixOf]
  | cons b2 k'' =>
    have e : ∀ X : Bytes, ([45, 45] : Bytes).isPrefixOf (b :: b2 :: X)
        = ((45 == b) && (45 == b2)) := by
      intro X
      simp [List.isPrefixOf]
    simp only [noDD, Bool.not_eq_true'] at hdd
    rw [List.cons_append, List.cons_append]
    rw [e]
    rw [e] at hdd
    exact hdd

theorem trailLines_oneline : ∀ (st : List (Bytes × Item)) (ls : List Bytes), st ≠ [] →
    (∀ f ∈ st, ∃ v, f.2 = Item.OneLine v) → trailLines st ls = [] := by
  intro st
  induction st with
  | nil => intro ls h _; exact absurd rfl h
  | cons f st' ih =>
    intro ls _ hone
    cases st' with
    | nil =>
      obtain ⟨v, hv⟩ := hone f (by simp)
      show itemLines f.2 = []
      rw [hv]
      rfl
    | cons g st'' =>
      show trailLines (g :: st'') ls = []
      exact ih ls (by simp) (fun x hx => hone x (by simp [hx]))

theorem renderDoc_cons (st : List (Bytes × Item)) (D : List (List (Bytes × Item))) :
    renderDoc (st :: D) = (st.map renderField).flatten ++ 10 :: renderDoc D := by
  simp [renderDoc, renderStanza, List.append_assoc]

theorem package_step_rend (st : List (Bytes × Item)) (rest2 : Bytes) (hne : st ≠ [])
    (hgood : ∀ f ∈ st, goodFieldB f = true)
    (hdd : ∀ f ∈ st, noDD f.1 = true) :
    package_step ((st.map renderField).flatten ++ 10 :: rest2)
      = some (multispace0 (bodyOf (trailLines st []) ++ 10 :: rest2), st.map rawField) := by
  cases st with
  | nil => exact absurd rfl hne
  | cons f st' =>
    have hk : goodKeyB f.1 = true := by
      have h := hgood f (by simp)
      simp only [goodFieldB, Bool.and_eq_true] at h
      exact h.1
    obtain ⟨hkne, _, _, _⟩ := goodKeyB_facts hk
    have hddf : noDD f.1 = true := hdd f (by simp)
    unfold package_step
    cases hk1 : f.1 with
    | nil => exact absurd hk1 hkne
    | cons b k' =>
      have e : ((f :: st').map renderField).flatten ++ 10 :: rest2
          = (b :: k') ++ 58 :: (renderItem f.2 ++ ((st'.map renderField).flatten ++ 10 :: rest2)) := by
        simp [renderField, hk1, List.append_assoc]
      have hcid : comment (((f :: st').map renderField).flatten ++ 10 :: rest2)
          = ((f :: st').map renderField).flatten ++ 10 :: rest2 := by
        rw [e]
        refine comment_id (noDD_render ?_ _)
        rw [hk1] at hddf
        exact hddf
      rw [hcid]
      exact single_package_rend (f :: st') rest2 (by simp) hgood

theorem ms0_doc (D : List (List (Bytes × Item))) (tail : Bytes)
    (hgood : ∀ st ∈ D, ∀ f ∈ st, goodFieldB f = true) (hne : ∀ st ∈ D, st ≠ [])
    (htail : tail = [] ∨ ∃ b t', tail = b :: t' ∧ isWs b = false) :
    multispace0 (renderDoc D ++ tail) = renderDoc D ++ tail := by
  cases D with
  | nil =>
    simp only [renderDoc, List.map_nil, List.flatten_nil, List.nil_append]
    rcases htail with rfl | ⟨b, t', rfl, hb⟩
    · rfl
    · exact multispace0_stop t' hb
  | cons st D' =>
    cases st with
    | nil => exact absurd rfl (hne [] (by simp))
    | cons f st'' =>
      have hk : goodKeyB f.1 = true := by
        have h := hgood (f :: st'') (by simp) f (by simp)
        simp only [goodFieldB, Bool.and_eq_true] at h
        exact h.1
      obtain ⟨hkne, _, _, _⟩ := goodKeyB_facts hk
      cases hk1 : f.1 with
      | nil => exact absurd hk1 hkne
      | cons b k' =>
        rw [hk1] at hk
        have hws := goodKeyB_head_ws hk
        have e : renderDoc ((f :: st'') :: D') ++ tail
            = b :: (k' ++ 58 :: (renderItem f.2
                ++ ((st''.map renderField).flatten ++ 10 :: (renderDoc D' ++ tail)))) := by
          rw [renderDoc_cons]
          simp [renderField, hk1, List.append_assoc]
        rw [e]
        exact multispace0_stop _ (by simp [isWs] at hws ⊢; omega)

theorem packages_rend : ∀ (D : List (List (Bytes × Item))) (tail : Bytes),
    (∀ st ∈ D, st ≠ []) →
    (∀ st ∈ D, ∀ f ∈ st, goodFieldB f = true) →
    (∀ st ∈ D, ∀ f ∈ st, ∃ v, f.2 = Item.OneLine v) →
    (∀ st ∈ D, ∀ f ∈ st, noDD f.1 = true) →
    (tail = [] ∨ ∃ b t', tail = b :: t' ∧ isWs b = false) →
    many0 package_step (renderDoc D ++ tail)
      = ((many0 package_step tail).1,
         D.map (List.map rawField) ++ (many0 package_step tail).2) := by
  intro D
  induction D with
  | nil => intro tail _ _ _ _ _; simp [renderDoc]
  | cons st D' ih =>
    intro tail hne hgood hone hdd htail
    have hstep := package_step_rend st (renderDoc D' ++ tail) (hne st (by simp))
      (hgood st (by simp)) (hdd st (by simp))
    rw [trailLines_oneline st [] (hne st (by simp)) (hone st (by simp))] at hstep
    simp only [bodyOf, List.map_nil, List.flatten_nil, List.nil_append] at hstep
    have hms : multispace0 (10 :: (renderDoc D' ++ tail)) = renderDoc D' ++ tail := by
      rw [multispace0_cons _ (by simp [isWs])]
      exact ms0_doc D' tail (fun s hs => hgood s (by simp [hs]))
        (fun s hs => hne s (by simp [hs])) htail
    rw [hms] at hstep
    rw [renderDoc_cons, List.append_assoc,
      show (10 : Nat) :: renderDoc D' ++ tail = 10 :: (renderDoc D' ++ tail) from rfl]
    rw [many0_some package_step_consumes hstep]
    rw [ih tail (fun s hs => hne s (by simp [hs])) (fun s hs => hgood s (by simp [hs]))
      (fun s hs => hone s (by simp [hs])) (fun s hs => hdd s (by simp [hs])) htail]
    simp

theorem multi_package_rend (st : List (Bytes × Item)) (D' : List (List (Bytes × Item)))
    (tail : Bytes)
    (hne : ∀ s ∈ st :: D', s ≠ [])
    (hgood : ∀ s ∈ st :: D', ∀ f ∈ s, goodFieldB f = true)
    (hone : ∀ s ∈ st :: D', ∀ f ∈ s, ∃ v, f.2 = Item.OneLine v)
    (hdd : ∀ s ∈ st :: D', ∀ f ∈ s, noDD f.1 = true)
    (htail : tail = [] ∨ ∃ b t', tail = b :: t' ∧ isWs b = false) :
    multi_package (renderDoc (st :: D') ++ tail)
      = some ((many0 package_step tail).1,
          (st :: D').map (List.map rawField) ++ (many0 package_step tail).2) := by
  have hstep := package_step_rend st (renderDoc D' ++ tail) (hne st (by simp))
    (hgood st (by simp)) (hdd st (by simp))
  rw [trailLines_oneline st [] (hne st (by simp)) (hone st (by simp))] at hstep
  simp only [bodyOf, List.map_nil, List.flatten_nil, List.nil_append] at hstep
  have hms : multispace0 (10 :: (renderDoc D' ++ tail)) = renderDoc D' ++ tail := by
    rw [multispace0_cons _ (by simp [isWs])]
    exact ms0_doc D' tail (fun s hs => hgood s (by simp [hs]))
      (fun s hs => hne s (by simp [hs])) htail
  rw [hms] at hstep
  unfold multi_package
  rw [renderDoc_cons, List.append_assoc,
    show (10 : Nat) :: renderDoc D' ++ tail = 10 :: (renderDoc D' ++ tail) from rfl]
  rw [hstep]
  dsimp only
  rw [packages_rend D' tail (fun s hs => hne s (by simp [hs])) (fun s hs => hgood s (by simp [hs]))
    (fun s hs => hone s (by simp [hs])) (fun s hs => hdd s (by simp [hs])) htail]
  simp

/-! ## The accumulating serializer equals the declarative renderer -/

theorem foldl_append_gen {α : Type} (g : α → Bytes) :
    ∀ (l : List α) (init : Bytes),
      l.foldl (fun s x => s ++ g x) init = init ++ (l.map g).flatten := by
  intro l
  induction l with
  | nil => intro init; simp
  | cons x l' ih => intro init; simp [ih, List.append_assoc]

theorem parse_back_item_eq (s : Bytes) (v : Item) :
    parse_back_item s v = s ++ renderItem v := by
  cases v with
  | OneLine x => rfl
  | MultiLine xs =>
    show xs.foldl (fun t l => t ++ (32 :: 32 :: (l ++ [10]))) (s ++ [10]) = _
    rw [show (fun (t l : Bytes) => t ++ (32 :: 32 :: (l ++ [10])))
        = (fun (t l : Bytes) => t ++ emitLine l) from rfl]
    rw [foldl_append_gen emitLine xs (s ++ [10])]
    simp [renderItem, List.append_assoc]

theorem parse_back_field_eq (s : Bytes) (kv : Bytes × Item) :
    parse_back_field s kv = s ++ renderField kv := by
  unfold parse_back_field
  rw [parse_back_item_eq]
  simp [renderField, List.append_assoc]

theorem parse_back_stanza_eq (s : Bytes) (st : List (Bytes × Item)) :
    parse_back_stanza s st = s ++ renderStanza st := by
  unfold parse_back_stanza renderStanza
  have h : st.foldl parse_back_field s = s ++ (st.map renderField).flatten := by
    rw [show parse_back_field = (fun (s : Bytes) (kv : Bytes × Item) => s ++ renderField kv)
        from funext (fun s => funext (fun kv => parse_back_field_eq s kv))]
    exact foldl_append_gen renderField st s
  rw [h, List.append_assoc]

theorem parse_back_eq_render (m : List (List (Bytes × Item))) : parse_back m = renderDoc m := by
  unfold parse_back renderDoc
  rw [show parse_back_stanza = (fun (s : Bytes) (st : List (Bytes × Item)) => s ++ renderStanza st)
      from funext (fun s => funext (fun st => parse_back_stanza_eq s st))]
  have h := foldl_append_gen renderStanza m []
  simpa using h

/-! ## Validity of every span extracted by the grammar from valid input -/

theorem many0_valid {α : Type} {p : Bytes → Option (Bytes × α)}
    (hp : ∀ i r v, p i = some (r, v) → r.length < i.length)
    (P : α → Prop)
    (hP : ∀ i r v, validUtf8 i = true → p i = some (r, v) → validUtf8 r = true ∧ P v) :
    ∀ (n : Nat) (i : Bytes), i.length ≤ n → validUtf8 i = true →
      validUtf8 (many0 p i).1 = true ∧ ∀ v ∈ (many0 p i).2, P v := by
  intro n
  induction n with
  | zero =>
    intro i hn hv
    have hi : i = [] := List.length_eq_zero.mp (Nat.le_zero.mp hn)
    subst hi
    cases hp0 : p [] with
    | none => rw [many0_none hp0]; exact ⟨hv, by simp⟩
    | some q =>
      obtain ⟨r, v⟩ := q
      exact absurd (hp [] r v hp0) (by simp)
  | succ n' ih =>
    intro i hn hv
    cases hp0 : p i with
    | none => rw [many0_none hp0]; exact ⟨hv, by simp⟩
    | some q =>
      obtain ⟨r, v⟩ := q
      obtain ⟨hr, hPv⟩ := hP i r v hv hp0
      rw [many0_some hp hp0]
      have hlen := hp i r v hp0
      obtain ⟨h1, h2⟩ := ih r (by omega) hr
      refine ⟨h1, ?_⟩
      intro x hx
      rcases List.mem_cons.mp hx with rfl | hx
      · exact hPv
      · exact h2 x hx

theorem mls_valid : ∀ (i r v : Bytes), validUtf8 i = true → multi_line_single i = some (r, v) →
    validUtf8 r = true ∧ validUtf8 v = true := by
  intro i r v hv h
  rw [mls_inv h] at hv
  rw [vu_cons_127 (by omega)] at hv
  obtain ⟨h1, h2⟩ := vu_split_app (by omega) hv
  rw [vu_cons_127 (by omega)] at h2
  exact ⟨h2, h1⟩

theorem hkn_valid {i : Bytes} (hv : validUtf8 i = true) :
    validUtf8 (handle_key_name i) = true :=
  (many0_valid mls_consumes (fun v => validUtf8 v = true) mls_valid i.length i
    (le_refl _) hv).1

theorem multi_line_valid {i : Bytes} (hv : validUtf8 i = true) :
    validUtf8 (multi_line i).1 = true ∧ ∀ c ∈ (multi_line i).2, validUtf8 c = true :=
  many0_valid mls_consumes (fun v => validUtf8 v = true) mls_valid i.length i (le_refl _) hv

theorem takeUntil_valid {d : Nat} {t' i rem taken : Bytes} (hd : d ≤ 127)
    (h : takeUntil (d :: t') i = some (rem, taken)) (hv : validUtf8 i = true) :
    validUtf8 taken = true ∧ validUtf8 rem = true := by
  obtain ⟨he, hpre⟩ := takeUntil_spec _ h
  cases rem with
  | nil => simp [List.isPrefixOf] at hpre
  | cons b rem' =>
    have hb : b = d := by
      simp only [List.isPrefixOf, Bool.and_eq_true, beq_iff_eq] at hpre
      exact hpre.1.symm
    subst hb
    subst he
    exact vu_split_app hd hv

theorem key_name_valid {i rem k : Bytes} (hv : validUtf8 i = true)
    (h : key_name i = some (rem, k)) : validUtf8 k = true ∧ validUtf8 rem = true := by
  unfold key_name handle_key at h
  cases h1 : takeUntil [58] (handle_key_name i) with
  | none => rw [h1] at h; cases h
  | some q =>
    obtain ⟨r1, k1⟩ := q
    rw [h1] at h
    dsimp only at h
    cases k1 with
    | nil => cases h
    | cons b k' =>
      dsimp only at h
      by_cases hb : b = 10
      · rw [if_pos hb] at h; cases h
      · rw [if_neg hb] at h
        injection h with h
        obtain ⟨h2, h3⟩ := Prod.mk.inj h
        subst h2; subst h3
        exact takeUntil_valid (by omega) h1 (hkn_valid hv)

theorem dropWhile_valid (q : Nat → Bool) (hq : ∀ b, q b = true → b ≤ 127) :
    ∀ {l : Bytes}, validUtf8 l = true → validUtf8 (l.dropWhile q) = true := by
  intro l
  induction l with
  | nil => intro h; exact h
  | cons b t ih =>
    intro h
    rw [List.dropWhile_cons]
    split
    · next hb =>
      refine ih ?_
      rw [vu_cons_127 (hq b hb)] at h
      exact h
    · exact h

theorem separator_valid {i r : Bytes} {u : Unit} (hv : validUtf8 i = true)
    (h : separator i = some (r, u)) : validUtf8 r = true := by
  obtain ⟨t, ht, hr⟩ := separator_inv h
  subst ht
  rw [vu_cons_127 (by omega)] at hv
  rw [hr]
  exact dropWhile_valid isSpaceTab (fun b hb => by simp [isSpaceTab] at hb; omega) hv

theorem single_line_valid {i r one : Bytes} (hv : validUtf8 i = true)
    (h : single_line i = some (r, one)) : validUtf8 one = true ∧ validUtf8 r = true := by
  rw [single_line_inv h] at hv
  obtain ⟨h1, h2⟩ := vu_split_app (by omega) hv
  rw [vu_cons_127 (by omega)] at h2
  exact ⟨h1, h2⟩

theorem value_field_valid {i r : Bytes} {v : Bytes × Bytes} (hv : validUtf8 i = true)
    (h : value_field i = some (r, v)) :
    validUtf8 r = true ∧ validUtf8 v.1 = true ∧ validUtf8 v.2 = true := by
  obtain ⟨hsl, hm⟩ := value_field_inv h
  obtain ⟨h1, h2⟩ := single_line_valid hv hsl
  refine ⟨h2, h1, ?_⟩
  rw [hm]
  exact vu_joinNl (multi_line_valid h2).2

theorem key_value_valid : ∀ (i r : Bytes) (v : Bytes × (Bytes × Bytes)),
    validUtf8 i = true → key_value i = some (r, v) →
    validUtf8 r = true ∧
      (validUtf8 v.1 = true ∧ validUtf8 v.2.1 = true ∧ validUtf8 v.2.2 = true) := by
  intro i r v hv h
  unfold key_value at h
  cases h1 : key_name i with
  | none => rw [h1] at h; cases h
  | some q1 =>
    obtain ⟨r1, k⟩ := q1
    rw [h1] at h
    dsimp only at h
    cases h2 : separator r1 with
    | none => rw [h2] at h; cases h
    | some q2 =>
      obtain ⟨r2, u⟩ := q2
      rw [h2] at h
      dsimp only at h
      cases h3 : value_field r2 with
      | none => rw [h3] at h; cases h
      | some q3 =>
        obtain ⟨r3, v3⟩ := q3
        rw [h3] at h
        dsimp only at h
        injection h with h
        obtain ⟨h4, h5⟩ := Prod.mk.inj h
        subst h4; subst h5
        obtain ⟨hk, hr1⟩ := key_name_valid hv h1
        have hr2 := separator_valid hr1 h2
        obtain ⟨hr3, hone, hmulti⟩ := value_field_valid hr2 h3
        exact ⟨hr3, hk, hone, hmulti⟩

theorem spansOk_of_triple {f : Bytes × (Bytes × Bytes)}
    (h : validUtf8 f.1 = true ∧ validUtf8 f.2.1 = true ∧ validUtf8 f.2.2 = true) :
    fieldSpansOk f = true := by
  unfold fieldSpansOk
  rw [h.1]
  simp only [Bool.true_and]
  split
  · exact h.2.2
  · exact h.2.1

theorem single_package_valid {i r : Bytes} {pv : List (Bytes × (Bytes × Bytes))}
    (hv : validUtf8 i = true) (h : single_package i = some (r, pv)) :
    validUtf8 r = true ∧ ∀ f ∈ pv, fieldSpansOk f = true := by
  unfold single_package at h
  cases h1 : key_value i with
  | none => rw [h1] at h; cases h
  | some q1 =>
    obtain ⟨r1, kv⟩ := q1
    rw [h1] at h
    dsimp only at h
    injection h with h
    obtain ⟨h2, h3⟩ := Prod.mk.inj h
    subst h2; subst h3
    obtain ⟨hr1, hkv⟩ := key_value_valid i r1 kv hv h1
    obtain ⟨hrem, hall⟩ := many0_valid key_value_consumes
      (fun v => validUtf8 v.1 = true ∧ validUtf8 v.2.1 = true ∧ validUtf8 v.2.2 = true)
      (fun i r v hv h => key_value_valid i r v hv h) r1.length r1 (le_refl _) hr1
    constructor
    · exact dropWhile_valid isWs (fun b hb => by simp [isWs] at hb; omega) hrem
    · intro f hf
      rcases List.mem_cons.mp hf with rfl | hf
      · exact spansOk_of_triple hkv
      · exact spansOk_of_triple (hall f hf)

theorem cs_valid : ∀ (i r v : Bytes), validUtf8 i = true → comment_single i = some (r, v) →
    validUtf8 r = true ∧ True := by
  intro i r v hv h
  rw [cs_inv h] at hv
  rw [vu_cons_127 (by omega), vu_cons_127 (by omega)] at hv
  obtain ⟨_, h2⟩ := vu_split_app (by omega : (45 : Nat) ≤ 127)
    (by rw [show v ++ 45 :: 10 :: r = v ++ 45 :: (10 :: r) from rfl] at hv; exact hv)
  rw [vu_cons_127 (by omega), vu_cons_127 (by omega)] at h2
  exact ⟨h2, trivial⟩

theorem comment_valid {i : Bytes} (hv : validUtf8 i = true) :
    validUtf8 (comment i) = true :=
  (many0_valid cs_consumes (fun _ => True) (fun i r v hv h => cs_valid i r v hv h)
    i.length i (le_refl _) hv).1

theorem package_step_valid {i r : Bytes} {pv : List (Bytes × (Bytes × Bytes))}
    (hv : validUtf8 i = true) (h : package_step i = some (r, pv)) :
    validUtf8 r = true ∧ ∀ f ∈ pv, fieldSpansOk f = true := by
  unfold package_step at h
  exact single_package_valid (comment_valid hv) h

theorem multi_package_valid {i r : Bytes} {pvs : List (List (Bytes × (Bytes × Bytes)))}
    (hv : validUtf8 i = true) (h : multi_package i = some (r, pvs)) :
    ∀ pv ∈ pvs, ∀ f ∈ pv, fieldSpansOk f = true := by
  unfold multi_package at h
  cases h1 : package_step i with
  | none => rw [h1] at h; cases h
  | some q1 =>
    obtain ⟨r1, pv1⟩ := q1
    rw [h1] at h
    dsimp only at h
    injection h with h
    obtain ⟨h2, h3⟩ := Prod.mk.inj h
    subst h2; subst h3
    obtain ⟨hr1, hpv1⟩ := package_step_valid hv h1
    obtain ⟨_, hall⟩ := many0_valid package_step_consumes
      (fun pv => ∀ f ∈ pv, fieldSpansOk f = true)
      (fun i r v hv h => package_step_valid hv h) r1.length r1 (le_refl _) hr1
    intro pv hpv
    rcases List.mem_cons.mp hpv with rfl | hpv
    · exact hpv1
    · exact hall pv hpv

theorem to_maps_ok_of_valid : ∀ (pvs : List (List (Bytes × (Bytes × Bytes)))),
    (∀ pv ∈ pvs, ∀ f ∈ pv, fieldSpansOk f = true) →
    ∃ ms, to_maps pvs = Except.ok ms := by
  intro pvs
  induction pvs with
  | nil => intro _; exact ⟨[], rfl⟩
  | cons pv pvs' ih =>
    intro hok
    obtain ⟨m, hm⟩ := to_map_go_ok_of_valid pv [] (hok pv (by simp))
    obtain ⟨ms, hms⟩ := ih (fun q hq => hok q (by simp [hq]))
    refine ⟨m :: ms, ?_⟩
    rw [to_maps, show to_map pv = Except.ok m from hm]
    dsimp only
    rw [hms]

theorem parse_one_no_enc {s : Bytes} (hv : validUtf8 s = true) :
    ∀ e, parse_one s = Except.error e → e = ParseErr.nomErr := by
  intro e h
  unfold parse_one at h
  cases h1 : single_package s with
  | none =>
    rw [h1] at h
    injection h with h
    exact h.symm
  | some q =>
    obtain ⟨r, pv⟩ := q
    rw [h1] at h
    dsimp only at h
    obtain ⟨_, hok⟩ := single_package_valid hv h1
    obtain ⟨m, hm⟩ := to_map_go_ok_of_valid pv [] hok
    rw [show to_map pv = Except.ok m from hm] at h
    cases h

theorem parse_multi_no_enc {s : Bytes} (hv : validUtf8 s = true) :
    ∀ e, parse_multi s = Except.error e → e = ParseErr.nomErr := by
  intro e h
  unfold parse_multi at h
  split at h
  · cases h
  · cases h1 : multi_package s with
    | none =>
      rw [h1] at h
      injection h with h
      exact h.symm
    | some q =>
      obtain ⟨r, pvs⟩ := q
      rw [h1] at h
      dsimp only at h
      obtain ⟨ms, hms⟩ := to_maps_ok_of_valid pvs (multi_package_valid hv h1)
      rw [hms] at h
      cases h

/-! ## Remaining helpers for the claims -/

theorem mapField_oneline : ∀ {st : List (Bytes × Item)},
    (∀ f ∈ st, ∃ v, f.2 = Item.OneLine v) → st.map mapField = st := by
  intro st
  induction st with
  | nil => intro _; rfl
  | cons f st' ih =>
    intro h
    obtain ⟨v, hv⟩ := h f (by simp)
    obtain ⟨k, item⟩ := f
    simp only at hv
    subst hv
    rw [List.map_cons, ih (fun g hg => h g (by simp [hg]))]
    rfl

theorem mapDoc_oneline : ∀ {D : List (List (Bytes × Item))},
    (∀ st ∈ D, ∀ f ∈ st, ∃ v, f.2 = Item.OneLine v) → D.map (List.map mapField) = D := by
  intro D
  induction D with
  | nil => intro _; rfl
  | cons st D' ih =>
    intro h
    rw [List.map_cons, mapField_oneline (h st (by simp)), ih (fun s hs => h s (by simp [hs]))]

theorem key_name_colon (t : Bytes) : key_name (58 :: t) = none := by
  unfold key_name handle_key
  rw [hkn_cons_ne t (by omega)]
  have htu : takeUntil [58] (58 :: t) = some (58 :: t, []) := by
    unfold takeUntil
    rw [if_pos (by simp [List.isPrefixOf])]
  rw [htu]

theorem package_step_colon (t : Bytes) : ∀ v, package_step (58 :: t) ≠ some v := by
  intro v h
  unfold package_step at h
  rw [comment_id (by simp [List.isPrefixOf])] at h
  unfold single_package key_value at h
  rw [key_name_colon t] at h
  cases h

theorem package_step_colon_none (t : Bytes) : package_step (58 :: t) = none := by
  cases h : package_step (58 :: t) with
  | none => rfl
  | some v => exact absurd h (package_step_colon t v)

theorem indexInsert_mem : ∀ (acc : List (Bytes × Item)) (k : Bytes) (v : Item)
    (kv : Bytes × Item), kv ∈ indexInsert acc k v → kv ∈ acc ∨ kv.2 = v := by
  intro acc
  induction acc with
  | nil =>
    intro k v kv h
    simp only [indexInsert, List.mem_singleton] at h
    subst h
    exact Or.inr rfl
  | cons p acc' ih =>
    intro k v kv h
    obtain ⟨k', v'⟩ := p
    rw [indexInsert_cons] at h
    split at h
    · rcases List.mem_cons.mp h with rfl | h1
      · exact Or.inr rfl
      · exact Or.inl (List.mem_cons_of_mem _ h1)
    · rcases List.mem_cons.mp h with rfl | h1
      · exact Or.inl (by simp)
      · rcases ih k v kv h1 with h2 | h2
        · exact Or.inl (List.mem_cons_of_mem _ h2)
        · exact Or.inr h2

theorem to_map_go_ml_ne : ∀ (pv : List (Bytes × (Bytes × Bytes))) (acc m : List (Bytes × Item)),
    (∀ kv ∈ acc, ∀ vs, kv.2 = Item.MultiLine vs → vs ≠ []) →
    to_map_go pv acc = Except.ok m →
    ∀ kv ∈ m, ∀ vs, kv.2 = Item.MultiLine vs → vs ≠ [] := by
  intro pv
  induction pv with
  | nil =>
    intro acc m hacc h
    simp only [to_map_go] at h
    injection h with h
    subst h
    exact hacc
  | cons f pv' ih =>
    intro acc m hacc h
    obtain ⟨k, one, multi⟩ := f
    rw [to_map_go_cons] at h
    cases hfk : from_utf8 k with
    | error e => rw [hfk] at h; cases h
    | ok kk =>
      rw [hfk] at h
      dsimp only at h
      by_cases hone : one = []
      · rw [if_pos hone] at h
        cases hfm : from_utf8 multi with
        | error e => rw [hfm] at h; cases h
        | ok m2 =>
          rw [hfm] at h
          dsimp only at h
          refine ih _ m ?_ h
          intro kv hkv vs hvs
          rcases indexInsert_mem acc kk (Item.MultiLine (splitNl m2)) kv hkv with h1 | h1
          · exact hacc kv h1 vs hvs
          · rw [h1] at hvs
            injection hvs with hvs
            rw [← hvs]
            exact splitNl_ne_nil m2
      · rw [if_neg hone] at h
        cases hfo : from_utf8 one with
        | error e => rw [hfo] at h; cases h
        | ok o2 =>
          rw [hfo] at h
          dsimp only at h
          refine ih _ m ?_ h
          intro kv hkv vs hvs
          rcases indexInsert_mem acc kk (Item.OneLine o2) kv hkv with h1 | h1
          · exact hacc kv h1 vs hvs
          · rw [h1] at hvs
            cases hvs

theorem to_maps_ml_ne : ∀ (pvs : List (List (Bytes × (Bytes × Bytes))))
    (ms : List (List (Bytes × Item))), to_maps pvs = Except.ok ms →
    ∀ m ∈ ms, ∀ kv ∈ m, ∀ vs, kv.2 = Item.MultiLine vs → vs ≠ [] := by
  intro pvs
  induction pvs with
  | nil =>
    intro ms h
    injection h with h
    subst h
    simp
  | cons pv pvs' ih =>
    intro ms h
    rw [to_maps] at h
    cases h1 : to_map pv with
    | error e => rw [h1] at h; cases h
    | ok m1 =>
      rw [h1] at h
      dsimp only at h
      cases h2 : to_maps pvs' with
      | error e => rw [h2] at h; cases h
      | ok ms' =>
        rw [h2] at h
        injection h with h
        subst h
        intro m hm
        rcases List.mem_cons.mp hm with rfl | hm
        · exact to_map_go_ml_ne pv [] m (by simp) h1
        · exact ih ms' h2 m hm

/-! ## Each hypothesis of the amended round-trip statement is forced:
dropping it admits a document on which the unrestricted round-trip
fails, as the following evaluations of the full parse chain document -/

/-- A value with a leading space loses it on reparse: `space0` after the
separator consumes it together with the space the serializer emitted. -/
theorem roundtrip_breaks_value_leading_space :
    parse_multi (parse_back [[(strBytes "k", Item.OneLine (strBytes " x"))]])
      = Except.ok [[(strBytes "k", Item.OneLine (strBytes "x"))]] := by decide

/-- A value with a leading tab loses it the same way. -/
theorem roundtrip_breaks_value_leading_tab :
    parse_multi (parse_back [[(strBytes "k", Item.OneLine (9 :: strBytes "x"))]])
      = Except.ok [[(strBytes "k", Item.OneLine (strBytes "x"))]] := by decide

/-- A key containing a colon is cut at its first colon, and the rest of
the key leaks into the value. -/
theorem roundtrip_breaks_colon_in_key :
    parse_multi (parse_back [[(strBytes "a:b", Item.OneLine (strBytes "v"))]])
      = Except.ok [[(strBytes "a", Item.OneLine (strBytes "b: v"))]] := by decide

/-- An empty key makes the reparse fail: `verify` in `key_name` rejects
an empty extracted key. -/
theorem roundtrip_breaks_empty_key :
    parse_multi (parse_back [[(([] : Bytes), Item.OneLine (strBytes "v"))]])
      = Except.error ParseErr.nomErr := by decide

/-- A key starting with a space makes the reparse fail: the whole line
is skipped as an orphan continuation line by `handle_key_name`. -/
theorem roundtrip_breaks_key_leading_space :
    parse_multi (parse_back [[(strBytes " a", Item.OneLine (strBytes "b"))]])
      = Except.error ParseErr.nomErr := by decide

/-- A key starting with a tab survives in a first stanza but not in a
later one: the `multispace0` that ends the previous stanza swallows it. -/
theorem roundtrip_breaks_key_leading_tab :
    parse_multi (parse_back [[(strBytes "a", Item.OneLine (strBytes "b"))],
                             [(9 :: strBytes "c", Item.OneLine (strBytes "d"))]])
      = Except.ok [[(strBytes "a", Item.OneLine (strBytes "b"))],
                   [(strBytes "c", Item.OneLine (strBytes "d"))]] := by decide

/-- A key starting with two dashes can turn the stanza into a comment
block when a dash-newline occurs later, making the reparse fail. -/
theorem roundtrip_breaks_dashdash_key :
    parse_multi (parse_back [[(strBytes "--a", Item.OneLine (strBytes "b-"))]])
      = Except.error ParseErr.nomErr := by decide

/-- Duplicate keys cannot round-trip: the insertion-ordered map keeps
one entry per key, last value winning. -/
theorem roundtrip_breaks_duplicate_keys :
    parse_multi (parse_back [[(strBytes "k", Item.OneLine (strBytes "a")),
                              (strBytes "k", Item.OneLine (strBytes "b"))]])
      = Except.ok [[(strBytes "k", Item.OneLine (strBytes "b"))]] := by decide

/-- An empty stanza serializes to a bare blank line, which is not a
stanza, so the reparse fails. -/
theorem roundtrip_breaks_empty_stanza :
    parse_multi (parse_back [([] : List (Bytes × Item))])
      = Except.error ParseErr.nomErr := by decide

/-! ## The claims -/

/-- Claim C1: every field built by the map-building step follows the
classification rule: an empty single-line candidate gives MultiLine by
splitting the continuation blob on newline, a nonempty candidate gives
OneLine; in particular parse_one classifies the two example inputs as
MultiLine and OneLine respectively. -/
theorem claim_C1 :
    (∀ (pv : List (Bytes × (Bytes × Bytes))) (m : List (Bytes × Item)),
        to_map pv = Except.ok m → m = classifyFold pv)
    ∧ parse_one (strBytes "Key:\n a\n b\n c\n")
        = Except.ok [(strBytes "Key", Item.MultiLine [strBytes "a", strBytes "b", strBytes "c"])]
    ∧ parse_one (strBytes "Key: value\n")
        = Except.ok [(strBytes "Key", Item.OneLine (strBytes "value"))] := by
  refine ⟨?_, by decide, by decide⟩
  intro pv m h
  exact to_map_go_classify pv [] m h

/-- Witness for C1 at a concrete raw field list. -/
theorem claim_C1_witness :
    [(strBytes "K", Item.OneLine (strBytes "v"))]
      = classifyFold [(strBytes "K", (strBytes "v", []))] :=
  claim_C1.1 [(strBytes "K", (strBytes "v", []))]
    [(strBytes "K", Item.OneLine (strBytes "v"))] (by decide)

/-- Counterexample to C2 as stated: the document with the single field
OneLine of the empty string (which has no newline) does not round-trip;
it reparses as MultiLine of one empty line. -/
theorem claim_C2_cx :
    parse_multi (parse_back [[(strBytes "k", Item.OneLine [])]])
        = Except.ok [[(strBytes "k", Item.MultiLine [[]])]]
    ∧ (Except.ok [[(strBytes "k", Item.MultiLine ([[]] : List Bytes))]]
        : Except ParseErr (List (List (Bytes × Item))))
      ≠ Except.ok [[(strBytes "k", Item.OneLine ([] : Bytes))]] := by
  exact ⟨by decide, by decide⟩

/-- Claim C2 amended: the OneLine round-trip holds for documents whose
stanzas are nonempty with pairwise distinct keys, whose keys are
nonempty valid UTF-8, colon-free, not starting with whitespace and not
starting with two dashes, and whose values are all OneLine, nonempty,
valid UTF-8, newline-free and not starting with a space or tab. -/
theorem claim_C2_amended (D : List (List (Bytes × Item)))
    (hne : ∀ st ∈ D, st ≠ [])
    (hnodup : ∀ st ∈ D, (st.map Prod.fst).Nodup)
    (hgood : ∀ st ∈ D, ∀ f ∈ st, goodFieldB f = true)
    (hone : ∀ st ∈ D, ∀ f ∈ st, ∃ v, f.2 = Item.OneLine v)
    (hdd : ∀ st ∈ D, ∀ f ∈ st, noDD f.1 = true) :
    parse_multi (parse_back D) = Except.ok D := by
  rw [parse_back_eq_render]
  cases D with
  | nil => rfl
  | cons st D' =>
    have hmp := multi_package_rend st D' [] hne hgood hone hdd (Or.inl rfl)
    have h0 : many0 package_step ([] : Bytes) = ([], []) := rfl
    rw [h0] at hmp
    rw [show renderDoc (st :: D') ++ ([] : Bytes) = renderDoc (st :: D') by simp] at hmp
    unfold parse_multi
    rw [if_neg (by rw [renderDoc_cons]; simp), hmp]
    dsimp only
    rw [List.append_nil, to_maps_raw (st :: D') hgood hnodup, mapDoc_oneline hone]

/-- Witness for the amended C2 at a concrete one-field document. -/
theorem claim_C2_witness :
    parse_multi (parse_back [[(strBytes "k", Item.OneLine (strBytes "v"))]])
      = Except.ok [[(strBytes "k", Item.OneLine (strBytes "v"))]] :=
  claim_C2_amended [[(strBytes "k", Item.OneLine (strBytes "v"))]]
    (by decide) (by decide) (by decide)
    (by
      intro st hst f hf
      rw [List.mem_singleton] at hst
      subst hst
      rw [List.mem_singleton] at hf
      subst hf
      exact ⟨strBytes "v", rfl⟩)
    (by decide)

/-- Counterexample to C3 as stated: serializing MultiLine of lines a, b
and reparsing yields the lines with one extra leading space each (the
serializer emits two spaces, the grammar strips one), so the recovered
line contents differ from the originals. -/
theorem claim_C3_cx :
    parse_one (parse_back [[(strBytes "k", Item.MultiLine [strBytes "a", strBytes "b"])]])
        = Except.ok [(strBytes "k", Item.MultiLine [strBytes " a", strBytes " b"])]
    ∧ ([strBytes " a", strBytes " b"] : List Bytes) ≠ [strBytes "a", strBytes "b"] := by
  exact ⟨by decide, by decide⟩

/-- Claim C3 amended: for a well-behaved stanza containing a MultiLine
field, serializing with parse_back and reparsing with parse_one yields
the stanza in which every MultiLine field has the same lines in the same
order except that each recovered line carries one extra leading space. -/
theorem claim_C3_amended (st : List (Bytes × Item))
    (hne : st ≠ []) (hnodup : (st.map Prod.fst).Nodup)
    (hgood : ∀ f ∈ st, goodFieldB f = true)
    (_hml : ∃ f ∈ st, ∃ vs, f.2 = Item.MultiLine vs) :
    parse_one (parse_back [st]) = Except.ok (st.map mapField)
    ∧ ∀ (k : Bytes) (vs : List Bytes), (k, Item.MultiLine vs) ∈ st →
        (k, Item.MultiLine (vs.map (fun l => 32 :: l))) ∈ st.map mapField := by
  constructor
  · rw [parse_back_eq_render]
    have e : renderDoc [st] = (st.map renderField).flatten ++ 10 :: ([] : Bytes) := by
      rw [renderDoc_cons]
      rfl
    unfold parse_one
    rw [e, single_package_rend st [] hne hgood]
    dsimp only
    exact to_map_raw st hgood hnodup
  · intro k vs hmem
    have h := List.mem_map_of_mem mapField hmem
    simpa [mapField, mapItem] using h

/-- Witness for the amended C3 at a concrete one-field stanza. -/
theorem claim_C3_witness :
    parse_one (parse_back [[(strBytes "k", Item.MultiLine [strBytes "a"])]])
      = Except.ok [(strBytes "k", Item.MultiLine [strBytes " a"])] :=
  (claim_C3_amended [(strBytes "k", Item.MultiLine [strBytes "a"])]
    (by decide) (by decide) (by decide)
    ⟨(strBytes "k", Item.MultiLine [strBytes "a"]), by simp, [strBytes "a"], rfl⟩).1

/-- Counterexample to C4 as stated: on two blank-line-separated stanzas
parse_one does not fail; it succeeds and returns the first stanza. -/
theorem claim_C4_cx :
    parse_one (strBytes "a: b\n\nc: d\n")
      = Except.ok [(strBytes "a", Item.OneLine (strBytes "b"))] := by decide

/-- Claim C4 amended: parse_one does not require its input to be a
single stanza; the remaining input after the first stanza is discarded,
so on a serialized two-stanza document it succeeds and returns the first
stanza (with recovered MultiLine lines gaining one leading space). -/
theorem claim_C4_amended (st1 st2 : List (Bytes × Item))
    (hne : st1 ≠ []) (hnodup : (st1.map Prod.fst).Nodup)
    (hgood : ∀ f ∈ st1, goodFieldB f = true) :
    parse_one (parse_back [st1, st2]) = Except.ok (st1.map mapField) := by
  rw [parse_back_eq_render]
  have e : renderDoc [st1, st2]
      = (st1.map renderField).flatten ++ 10 :: renderDoc [st2] := renderDoc_cons st1 [st2]
  unfold parse_one
  rw [e, single_package_rend st1 (renderDoc [st2]) hne hgood]
  dsimp only
  exact to_map_raw st1 hgood hnodup

/-- Witness for the amended C4 at two concrete stanzas. -/
theorem claim_C4_witness :
    parse_one (parse_back [[(strBytes "a", Item.OneLine (strBytes "b"))],
                           [(strBytes "c", Item.OneLine (strBytes "d"))]])
      = Except.ok [(strBytes "a", Item.OneLine (strBytes "b"))] :=
  claim_C4_amended [(strBytes "a", Item.OneLine (strBytes "b"))]
    [(strBytes "c", Item.OneLine (strBytes "d"))] (by decide) (by decide) (by decide)

/-- Counterexample to C5 as stated: trailing content that is neither a
comment block nor a stanza is silently discarded by parse_multi, not
reported as a syntax error. -/
theorem claim_C5_cx :
    parse_multi (strBytes "a: b\n\n:bad\n")
      = Except.ok [[(strBytes "a", Item.OneLine (strBytes "b"))]] := by decide

/-- Claim C5 amended: after at least one well-formed stanza, trailing
content at which the grammar cannot match another comment block or
stanza (here: anything starting with a colon) is silently dropped and
parse_multi still succeeds with the stanzas parsed so far. -/
theorem claim_C5_amended (st : List (Bytes × Item)) (D' : List (List (Bytes × Item)))
    (t : Bytes)
    (hne : ∀ s ∈ st :: D', s ≠ [])
    (hnodup : ∀ s ∈ st :: D', (s.map Prod.fst).Nodup)
    (hgood : ∀ s ∈ st :: D', ∀ f ∈ s, goodFieldB f = true)
    (hone : ∀ s ∈ st :: D', ∀ f ∈ s, ∃ v, f.2 = Item.OneLine v)
    (hdd : ∀ s ∈ st :: D', ∀ f ∈ s, noDD f.1 = true) :
    parse_multi (parse_back (st :: D') ++ 58 :: t) = Except.ok (st :: D') := by
  rw [parse_back_eq_render]
  have hmp := multi_package_rend st D' (58 :: t) hne hgood hone hdd
    (Or.inr ⟨58, t, rfl, by simp [isWs]⟩)
  have hskip : many0 package_step (58 :: t) = (58 :: t, []) :=
    many0_none (package_step_colon_none t)
  rw [hskip] at hmp
  unfold parse_multi
  rw [if_neg (by rw [renderDoc_cons]; simp), hmp]
  dsimp only
  rw [List.append_nil, to_maps_raw (st :: D') hgood hnodup, mapDoc_oneline hone]

/-- Witness for the amended C5 at a concrete stanza with trailing junk. -/
theorem claim_C5_witness :
    parse_multi (parse_back [[(strBytes "a", Item.OneLine (strBytes "b"))]]
        ++ 58 :: strBytes "junk")
      = Except.ok [[(strBytes "a", Item.OneLine (strBytes "b"))]] :=
  claim_C5_amended [(strBytes "a", Item.OneLine (strBytes "b"))] [] (strBytes "junk")
    (by decide) (by decide) (by decide)
    (by
      intro s hs f hf
      rw [List.mem_singleton] at hs
      subst hs
      rw [List.mem_singleton] at hf
      subst hf
      exact ⟨strBytes "b", rfl⟩)
    (by decide)

/-- Claim C6: the serializer emits, for each stanza in order and for
each field in stored order, the key, a colon, then for OneLine a space,
the value and a newline, for MultiLine a newline then each line behind
two spaces with a newline, and one blank line after each stanza; and the
example document serializes to exactly the stated text. -/
theorem claim_C6 :
    (∀ m : List (List (Bytes × Item)), parse_back m = renderDoc m)
    ∧ parse_back [[(strBytes "a", Item.OneLine (strBytes "b")),
                   (strBytes "c", Item.MultiLine [strBytes "a", strBytes "b"]),
                   (strBytes "d", Item.OneLine (strBytes "e"))],
                  [(strBytes "a", Item.OneLine (strBytes "b"))]]
        = strBytes "a: b\nc:\n  a\n  b\nd: e\n\na: b\n\n" :=
  ⟨parse_back_eq_render, by decide⟩

/-- Claim C7: whenever a key span or the value span that the map builder
decodes is not valid UTF-8, to_map returns the encoding error, and at
the parse_multi level the whole parse aborts with the encoding error, so
no partial or substituted document is ever produced. -/
theorem claim_C7 :
    (∀ (pv : List (Bytes × (Bytes × Bytes))), (∃ f ∈ pv, fieldSpansOk f = false) →
        to_map pv = Except.error ParseErr.utf8Err)
    ∧ (∀ (s r : Bytes) (pvs : List (List (Bytes × (Bytes × Bytes)))),
        s ≠ [] → multi_package s = some (r, pvs) →
        (∃ pv ∈ pvs, ∃ f ∈ pv, fieldSpansOk f = false) →
        parse_multi s = Except.error ParseErr.utf8Err) := by
  constructor
  · intro pv h
    exact to_map_go_bad pv [] h
  · intro s r pvs hne hmp hbad
    unfold parse_multi
    rw [if_neg hne, hmp]
    dsimp only
    exact to_maps_bad pvs hbad

/-- Witness for C7: a key containing the invalid byte 255 makes the
whole parse abort with the encoding error. -/
theorem claim_C7_witness :
    parse_multi [75, 255, 58, 32, 118, 10] = Except.error ParseErr.utf8Err :=
  claim_C7.2 [75, 255, 58, 32, 118, 10] [] [[([75, 255], ([118], []))]]
    (by decide) rfl
    ⟨[([75, 255], ([118], []))], by decide, ([75, 255], ([118], [])), by decide, by decide⟩

/-- Claim C8: a comment block of the three-dash form followed by text
free of newlines and the closing three dashes and newline is consumed
before a stanza, so parse_multi on the prefixed input returns exactly
the same result as on the unprefixed, nonempty input. -/
theorem claim_C8 (t S : Bytes) (h10 : 10 ∉ t) (hS : S ≠ []) :
    parse_multi ([45, 45, 45] ++ t ++ [45, 45, 45, 10] ++ S) = parse_multi S := by
  have hu10 : 10 ∉ ([45] ++ t ++ [45, 45] : Bytes) := by
    simp [h10]
  have hcs : comment_single ([45, 45, 45] ++ t ++ [45, 45, 45, 10] ++ S)
      = some (S, [45] ++ t ++ [45, 45]) := by
    unfold comment_single
    have e : ([45, 45, 45] ++ t ++ [45, 45, 45, 10] ++ S : Bytes)
        = [45, 45] ++ (([45] ++ t ++ [45, 45]) ++ 45 :: 10 :: S) := by
      simp [List.append_assoc]
    rw [e, tagB_self]
    dsimp only
    rw [takeUntil_dash_app S hu10]
    dsimp only
    rw [show tagB [45, 10] (45 :: 10 :: S) = some (S, [45, 10]) by
      simpa using tagB_self [45, 10] S]
  have hcom : comment ([45, 45, 45] ++ t ++ [45, 45, 45, 10] ++ S) = comment S := by
    show (many0 comment_single _).1 = (many0 comment_single S).1
    rw [many0_some cs_consumes hcs]
  have hstep : package_step ([45, 45, 45] ++ t ++ [45, 45, 45, 10] ++ S) = package_step S := by
    unfold package_step
    rw [hcom]
  have hmp : multi_package ([45, 45, 45] ++ t ++ [45, 45, 45, 10] ++ S) = multi_package S := by
    unfold multi_package
    rw [hstep]
  unfold parse_multi
  rw [if_neg (by simp), if_neg hS, hmp]

/-- Witness for C8 at a concrete comment and stanza. -/
theorem claim_C8_witness :
    parse_multi ([45, 45, 45] ++ strBytes "abc" ++ [45, 45, 45, 10] ++ strBytes "K: v\n")
      = parse_multi (strBytes "K: v\n") :=
  claim_C8 (strBytes "abc") (strBytes "K: v\n") (by decide) (by decide)

/-- Claim C9: on valid UTF-8 input (every Rust str is one) the grammar
only ever extracts valid UTF-8 spans, so parse_one and parse_multi can
only fail with the grammar error, never the encoding error, and every
continuation-line span handed to the internal unwrap is valid UTF-8. -/
theorem claim_C9 (s : Bytes) (hv : validUtf8 s = true) :
    (∀ e, parse_one s = Except.error e → e = ParseErr.nomErr)
    ∧ (∀ e, parse_multi s = Except.error e → e = ParseErr.nomErr)
    ∧ (∀ c ∈ (multi_line s).2, validUtf8 c = true) :=
  ⟨parse_one_no_enc hv, parse_multi_no_enc hv, (multi_line_valid hv).2⟩

/-- Witness for C9: a concrete continuation line extracted from valid
input is valid UTF-8. -/
theorem claim_C9_witness : validUtf8 (strBytes "a") = true :=
  (claim_C9 (strBytes " a\n") (by decide)).2.2 (strBytes "a") (by decide)

/-- Claim C10: every MultiLine value in any successful parse result is
nonempty, because splitting any string on newline yields at least one
piece; a field with an empty candidate and no continuation lines parses
to MultiLine of one empty string. -/
theorem claim_C10 :
    (∀ (s : Bytes) (m : List (Bytes × Item)), parse_one s = Except.ok m →
        ∀ kv ∈ m, ∀ vs, kv.2 = Item.MultiLine vs → vs ≠ [])
    ∧ (∀ (s : Bytes) (ms : List (List (Bytes × Item))), parse_multi s = Except.ok ms →
        ∀ m ∈ ms, ∀ kv ∈ m, ∀ vs, kv.2 = Item.MultiLine vs → vs ≠ [])
    ∧ parse_one (strBytes "K:\n") = Except.ok [(strBytes "K", Item.MultiLine [[]])] := by
  refine ⟨?_, ?_, by decide⟩
  · intro s m h
    unfold parse_one at h
    cases h1 : single_package s with
    | none => rw [h1] at h; cases h
    | some q =>
      obtain ⟨r, pv⟩ := q
      rw [h1] at h
      dsimp only at h
      exact to_map_go_ml_ne pv [] m (by simp) h
  · intro s ms h
    unfold parse_multi at h
    split at h
    · injection h with h
      subst h
      simp
    · cases h1 : multi_package s with
      | none => rw [h1] at h; cases h
      | some q =>
        obtain ⟨r, pvs⟩ := q
        rw [h1] at h
        dsimp only at h
        exact to_maps_ml_ne pvs ms h

/-- Witness for C10 at a concrete input whose field parses to MultiLine
of one empty line. -/
theorem claim_C10_witness : ([[]] : List Bytes) ≠ [] :=
  claim_C10.1 (strBytes "K:\n") [(strBytes "K", Item.MultiLine [[]])] (by decide)
    (strBytes "K", Item.MultiLine [[]]) (by decide) [[]] rfl

end EightDeep
